import Mathlib

/-!
# Verification of the kevo storage engine WAL and memtable

Shallow embedding of the write-ahead log (`pkg/wal`), the memtable
(`pkg/memtable`) and the WAL recovery path (`pkg/memtable/recovery.go`) of
the KevoDB/kevo repository, together with theorems settling the frozen
claims about sequence-number discipline, fragmentation, replay round-trip,
status-machine rejections, overflow guards, memtable lookup semantics,
immutability, and recovery segmentation.

Bytes are modelled as natural numbers; fixed-width machine arithmetic is
made explicit with `% 2^w` where the Go code truncates.
-/

namespace Kevo

/-! ## Little-endian encoding helpers (Go `binary.LittleEndian`) -/

/-- `leBytes w n` is the `w`-byte little-endian encoding of `n`
(truncating to `w` bytes, as Go's fixed-width stores do). -/
def leBytes : Nat → Nat → List Nat
  | 0, _ => []
  | w + 1, n => n % 256 :: leBytes w (n / 256)

/-- Little-endian value of a byte list (`binary.LittleEndian.Uint*`). -/
def leVal : List Nat → Nat
  | [] => 0
  | b :: bs => b + 256 * leVal bs

@[simp] theorem leBytes_length (w n : Nat) : (leBytes w n).length = w := by
  induction w generalizing n with
  | zero => rfl
  | succ w ih => simp [leBytes, ih]

theorem leVal_leBytes (w n : Nat) : leVal (leBytes w n) = n % 256 ^ w := by
  induction w generalizing n with
  | zero => simp [leBytes, leVal, Nat.mod_one]
  | succ w ih =>
    simp only [leBytes, leVal, ih]
    rw [pow_succ', Nat.mod_mul]

theorem leVal_leBytes_of_lt {w n : Nat} (h : n < 256 ^ w) :
    leVal (leBytes w n) = n := by
  rw [leVal_leBytes, Nat.mod_eq_of_lt h]

/-! ## CRC-32 (IEEE polynomial, as `hash/crc32.ChecksumIEEE`) -/

/-- One bit step of the reflected CRC-32 computation. -/
def crc32Bit (c : Nat) : Nat :=
  if c % 2 = 1 then (c / 2) ^^^ 0xEDB88320 else c / 2

/-- Fold one byte into the running CRC. -/
def crc32Byte (c b : Nat) : Nat :=
  let c := c ^^^ (b % 256)
  crc32Bit (crc32Bit (crc32Bit (crc32Bit (crc32Bit (crc32Bit (crc32Bit (crc32Bit c)))))))

/-- CRC-32 checksum with the IEEE polynomial over a byte list
(`crc32.ChecksumIEEE`). -/
def crc32 (data : List Nat) : Nat :=
  (data.foldl crc32Byte 0xFFFFFFFF) ^^^ 0xFFFFFFFF

theorem crc32Bit_lt {c : Nat} (h : c < 2 ^ 32) : crc32Bit c < 2 ^ 32 := by
  unfold crc32Bit
  split
  · exact Nat.xor_lt_two_pow (by omega) (by norm_num)
  · omega

theorem crc32Byte_lt {c : Nat} (b : Nat) (h : c < 2 ^ 32) :
    crc32Byte c b < 2 ^ 32 := by
  unfold crc32Byte
  have h1 : c ^^^ b % 256 < 2 ^ 32 :=
    Nat.xor_lt_two_pow h (lt_of_lt_of_le (Nat.mod_lt _ (by norm_num)) (by norm_num))
  exact crc32Bit_lt (crc32Bit_lt (crc32Bit_lt (crc32Bit_lt
    (crc32Bit_lt (crc32Bit_lt (crc32Bit_lt (crc32Bit_lt h1)))))))

theorem foldl_crc32Byte_lt (data : List Nat) :
    ∀ c : Nat, c < 2 ^ 32 → data.foldl crc32Byte c < 2 ^ 32 := by
  induction data with
  | nil => intro c hc; simpa using hc
  | cons b bs ih => intro c hc; exact ih _ (crc32Byte_lt b hc)

theorem crc32_lt (data : List Nat) : crc32 data < 2 ^ 32 := by
  unfold crc32
  exact Nat.xor_lt_two_pow (foldl_crc32Byte_lt data _ (by norm_num)) (by norm_num)

/-! ## WAL constants (`pkg/wal`) -/

/-- Record type `Full`. -/
def RecordTypeFull : Nat := 1
/-- Record type `First`. -/
def RecordTypeFirst : Nat := 2
/-- Record type `Middle`. -/
def RecordTypeMiddle : Nat := 3
/-- Record type `Last`. -/
def RecordTypeLast : Nat := 4

/-- Operation type `Put`. -/
def OpTypePut : Nat := 1
/-- Operation type `Delete`. -/
def OpTypeDelete : Nat := 2
/-- Operation type `Merge`. -/
def OpTypeMerge : Nat := 3

/-- Physical record header size: CRC (4) + Length (2) + Type (1). -/
def HeaderSize : Nat := 7

/-- Maximum size of a record payload (32 KiB). -/
def MaxRecordSize : Nat := 32 * 1024

/-- WAL status `Active`. -/
def WALStatusActive : Nat := 0
/-- WAL status `Rotating`. -/
def WALStatusRotating : Nat := 1
/-- WAL status `Closed`. -/
def WALStatusClosed : Nat := 2

/-- `MaxSequenceNumber = math.MaxUint64 - 1_000_000`: one million sequence
numbers are reserved before overflow for graceful shutdown. -/
def MaxSequenceNumber : Nat := 2 ^ 64 - 1 - 1000000

/-- `SequenceWarningThreshold = math.MaxUint64 - 10_000_000`: warn when ten
million sequence numbers remain. -/
def SequenceWarningThreshold : Nat := 2 ^ 64 - 1 - 10000000

/-- Errors surfaced by the WAL append family. -/
inductive WalError where
  | walClosed
  | walRotating
  | invalidOpType
  | sequenceOverflow
  | recordTooLarge
  | recordTooSmall
  | sizeMismatch
  deriving DecidableEq, Repr

instance {ε α : Type} [DecidableEq ε] [DecidableEq α] :
    DecidableEq (Except ε α) := fun a b =>
  match a, b with
  | .ok x, .ok y =>
    if h : x = y then .isTrue (by rw [h]) else .isFalse (by simp [h])
  | .error x, .error y =>
    if h : x = y then .isTrue (by rw [h]) else .isFalse (by simp [h])
  | .ok _, .error _ => .isFalse (by simp)
  | .error _, .ok _ => .isFalse (by simp)

/-- A logical WAL entry (`wal.Entry`): operation type, sequence number,
key bytes and value bytes. -/
structure Entry where
  sequenceNumber : Nat
  type : Nat
  key : List Nat
  value : List Nat
  deriving DecidableEq, Repr

/-- The WAL state relevant to the claims: the status word, the next
sequence number, the overflow-warning flag, the number of overflow
warnings actually logged, and the bytes appended to the segment file
(write buffer and file contents concatenated; buffering, fsync and
observers do not change which bytes are appended). -/
structure WAL where
  status : Nat
  nextSequence : Nat
  overflowWarning : Bool
  warningsLogged : Nat
  fileBytes : List Nat
  deriving DecidableEq, Repr

/-! ## WAL record writing (from `writeRecord` / `writeRawRecord` /
`writeFragmentedRecord`) -/

/-- The framed bytes of one physical record: header
`{crc32 (4 LE), length (2 LE), type (1)}` followed by the payload. -/
def frameBytes (recordType : Nat) (data : List Nat) : List Nat :=
  leBytes 4 (crc32 data) ++ leBytes 2 data.length ++ [recordType] ++ data

/-- `writeRawRecord`: frame a payload, rejecting payloads larger than
`MaxRecordSize`. Returns the bytes to append. -/
def writeRawRecord (recordType : Nat) (data : List Nat) :
    Except WalError (List Nat) :=
  if data.length > MaxRecordSize then .error .recordTooLarge
  else .ok (frameBytes recordType data)

/-- Encoded size of a logical entry payload:
`type(1) + seq(8) + keylen(4) + key` plus `vallen(4) + val` unless the
operation is a Delete. -/
def entryPayloadSize (entryType : Nat) (key value : List Nat) : Nat :=
  1 + 8 + 4 + key.length +
    (if entryType ≠ OpTypeDelete then 4 + value.length else 0)

/-- The logical entry payload
`{op_type (1), seq (8 LE), key_len (4 LE), key, [val_len (4 LE), value]}`;
Delete entries omit the value section. -/
def encodePayload (entryType seqNum : Nat) (key value : List Nat) : List Nat :=
  [entryType] ++ leBytes 8 seqNum ++ leBytes 4 key.length ++ key ++
    (if entryType ≠ OpTypeDelete then leBytes 4 value.length ++ value else [])

/-- `writeRecord`: encode a logical entry as a single physical record. -/
def writeRecord (recordType entryType seqNum : Nat) (key value : List Nat) :
    Except WalError (List Nat) :=
  if entryPayloadSize entryType key value > MaxRecordSize then
    .error .recordTooLarge
  else writeRawRecord recordType (encodePayload entryType seqNum key value)

/-- The middle/last part of `writeFragmentedRecord`: while more than
`MaxRecordSize` bytes remain, emit a Middle record of exactly
`MaxRecordSize` bytes; a final nonempty remainder becomes a Last record. -/
def writeMiddleLast (remaining : List Nat) : Except WalError (List Nat) :=
  if remaining.length > MaxRecordSize then do
    let chunkBytes ← writeRawRecord RecordTypeMiddle (remaining.take MaxRecordSize)
    let restBytes ← writeMiddleLast (remaining.drop MaxRecordSize)
    return chunkBytes ++ restBytes
  else if remaining.length > 0 then
    writeRawRecord RecordTypeLast remaining
  else
    .ok []
termination_by remaining.length
decreasing_by simp [MaxRecordSize] at *; omega

/-- `writeFragmentedRecord`: the First record carries the metadata prefix
(op, seq, key_len) and as many key bytes as fit; the remaining key bytes
and (for non-Delete ops) the value length and value follow as one
contiguous stream of Middle records and a Last record. -/
def writeFragmentedRecord (entryType seqNum : Nat) (key value : List Nat) :
    Except WalError (List Nat) := do
  let headerSize := 1 + 8 + 4
  let maxKeyInFirst := MaxRecordSize - headerSize
  let keyInFirst := min key.length maxKeyInFirst
  let firstFragment :=
    [entryType] ++ leBytes 8 seqNum ++ leBytes 4 key.length ++ key.take keyInFirst
  let firstBytes ← writeRawRecord RecordTypeFirst firstFragment
  let remaining := key.drop keyInFirst ++
    (if entryType ≠ OpTypeDelete then leBytes 4 value.length ++ value else [])
  let restBytes ← writeMiddleLast remaining
  return firstBytes ++ restBytes

/-! ## WAL append operations

Each operation returns the post-call WAL state together with the Go
result: `Except WalError Nat` stands for `(uint64, error)`. The Go code
mutates the receiver in place, so the state is returned also when an
error is reported. -/

/-- The overflow warning: when the sequence number that is about to be
used reaches `SequenceWarningThreshold` and no warning was logged yet,
set `overflowWarning` and log (count) one warning. -/
def warnIfNeeded (w : WAL) (seq : Nat) : WAL :=
  if seq ≥ SequenceWarningThreshold ∧ ¬w.overflowWarning then
    { w with overflowWarning := true, warningsLogged := w.warningsLogged + 1 }
  else w

/-- `WAL.Append`: append one entry, assigning `nextSequence` to it. -/
def WAL.Append (w : WAL) (entryType : Nat) (key value : List Nat) :
    WAL × Except WalError Nat :=
  if w.status = WALStatusClosed then (w, .error .walClosed)
  else if w.status = WALStatusRotating then (w, .error .walRotating)
  else if entryType ≠ OpTypePut ∧ entryType ≠ OpTypeDelete ∧ entryType ≠ OpTypeMerge then
    (w, .error .invalidOpType)
  else if w.nextSequence ≥ MaxSequenceNumber then (w, .error .sequenceOverflow)
  else
    let w := warnIfNeeded w w.nextSequence
    let seqNum := w.nextSequence
    let w := { w with nextSequence := w.nextSequence + 1 }
    let written :=
      if entryPayloadSize entryType key value ≤ MaxRecordSize then
        writeRecord RecordTypeFull entryType seqNum key value
      else
        writeFragmentedRecord entryType seqNum key value
    match written with
    | .error e => (w, .error e)
    | .ok bytes => ({ w with fileBytes := w.fileBytes ++ bytes }, .ok seqNum)

/-- `WAL.AppendWithSequence`: append one entry with a caller-supplied
sequence number (replication path). -/
def WAL.AppendWithSequence (w : WAL) (entryType : Nat) (key value : List Nat)
    (sequenceNumber : Nat) : WAL × Except WalError Nat :=
  if w.status = WALStatusClosed then (w, .error .walClosed)
  else if w.status = WALStatusRotating then (w, .error .walRotating)
  else if entryType ≠ OpTypePut ∧ entryType ≠ OpTypeDelete ∧ entryType ≠ OpTypeMerge then
    (w, .error .invalidOpType)
  else if sequenceNumber ≥ MaxSequenceNumber then (w, .error .sequenceOverflow)
  else
    let seqNum := sequenceNumber
    let w :=
      if seqNum ≥ w.nextSequence then
        let newNextSeq := seqNum + 1
        let w := warnIfNeeded w newNextSeq
        { w with nextSequence := newNextSeq }
      else w
    let written :=
      if entryPayloadSize entryType key value ≤ MaxRecordSize then
        writeRecord RecordTypeFull entryType seqNum key value
      else
        writeFragmentedRecord entryType seqNum key value
    match written with
    | .error e => (w, .error e)
    | .ok bytes => ({ w with fileBytes := w.fileBytes ++ bytes }, .ok seqNum)

/-- The batch-writing loop of `AppendBatch`: write each entry as a Full
record carrying the shared sequence number; on the first failure, keep
the bytes already placed in the buffer and report the error. -/
def writeBatch (seqNum : Nat) : List Entry → List Nat × Option WalError
  | [] => ([], none)
  | e :: rest =>
    match writeRecord RecordTypeFull e.type seqNum e.key e.value with
    | .error err => ([], some err)
    | .ok b =>
      let (bs, r) := writeBatch seqNum rest
      (b ++ bs, r)

/-- `WAL.AppendBatch`: append a batch atomically; all entries share one
sequence number and `nextSequence` advances by exactly 1. An empty batch
returns the current `nextSequence` unchanged. -/
def WAL.AppendBatch (w : WAL) (entries : List Entry) :
    WAL × Except WalError Nat :=
  if w.status = WALStatusClosed then (w, .error .walClosed)
  else if w.status = WALStatusRotating then (w, .error .walRotating)
  else if entries = [] then (w, .ok w.nextSequence)
  else if w.nextSequence ≥ MaxSequenceNumber then (w, .error .sequenceOverflow)
  else
    let w := warnIfNeeded w w.nextSequence
    let startSeqNum := w.nextSequence
    let (bytes, err) := writeBatch startSeqNum entries
    match err with
    | some e => ({ w with fileBytes := w.fileBytes ++ bytes }, .error e)
    | none =>
      ({ w with fileBytes := w.fileBytes ++ bytes,
                nextSequence := startSeqNum + 1 }, .ok startSeqNum)

/-- `WAL.AppendBatchWithSequence`: append a batch with a caller-supplied
starting sequence number (replication path). -/
def WAL.AppendBatchWithSequence (w : WAL) (entries : List Entry)
    (startSequence : Nat) : WAL × Except WalError Nat :=
  if w.status = WALStatusClosed then (w, .error .walClosed)
  else if w.status = WALStatusRotating then (w, .error .walRotating)
  else if entries = [] then (w, .ok startSequence)
  else if startSequence ≥ MaxSequenceNumber then (w, .error .sequenceOverflow)
  else
    let w := warnIfNeeded w startSequence
    let startSeqNum := startSequence
    let (bytes, err) := writeBatch startSeqNum entries
    match err with
    | some e => ({ w with fileBytes := w.fileBytes ++ bytes }, .error e)
    | none =>
      let endSeq := startSeqNum + 1
      let w := if endSeq > w.nextSequence then { w with nextSequence := endSeq } else w
      ({ w with fileBytes := w.fileBytes ++ bytes }, .ok startSeqNum)

/-- `WAL.AppendExactBytes`: append a caller-supplied, already-framed
physical record verbatim, after checking that the declared payload
length in the header matches the buffer length. -/
def WAL.AppendExactBytes (w : WAL) (rawBytes : List Nat) (seqNum : Nat) :
    WAL × Except WalError Nat :=
  if w.status = WALStatusClosed then (w, .error .walClosed)
  else if w.status = WALStatusRotating then (w, .error .walRotating)
  else if rawBytes.length < HeaderSize then (w, .error .recordTooSmall)
  else
    let payloadSize := leVal ((rawBytes.drop 4).take 2)
    if rawBytes.length ≠ HeaderSize + payloadSize then (w, .error .sizeMismatch)
    else
      let w :=
        if seqNum ≥ w.nextSequence then { w with nextSequence := seqNum + 1 }
        else w
      ({ w with fileBytes := w.fileBytes ++ rawBytes }, .ok seqNum)

/-! ## Supporting lemmas about the record writers -/

theorem encodePayload_length (entryType seqNum : Nat) (key value : List Nat) :
    (encodePayload entryType seqNum key value).length =
      entryPayloadSize entryType key value := by
  unfold encodePayload entryPayloadSize
  split <;> simp <;> omega

theorem writeRecord_ok {entryType : Nat} {key value : List Nat}
    (recordType seqNum : Nat)
    (h : entryPayloadSize entryType key value ≤ MaxRecordSize) :
    writeRecord recordType entryType seqNum key value =
      .ok (frameBytes recordType (encodePayload entryType seqNum key value)) := by
  unfold writeRecord writeRawRecord
  rw [encodePayload_length]
  simp [Nat.not_lt.mpr h]

theorem writeBatch_ok {seqNum : Nat} {entries : List Entry}
    (h : (writeBatch seqNum entries).2 = none) :
    (writeBatch seqNum entries).1 =
      (entries.map fun e =>
        frameBytes RecordTypeFull (encodePayload e.type seqNum e.key e.value)).flatten := by
  induction entries with
  | nil => simp [writeBatch]
  | cons e rest ih =>
    unfold writeBatch at h ⊢
    cases hw : writeRecord RecordTypeFull e.type seqNum e.key e.value with
    | error err => simp [hw] at h
    | ok b =>
      have hb : b = frameBytes RecordTypeFull (encodePayload e.type seqNum e.key e.value) := by
        unfold writeRecord writeRawRecord at hw
        rw [encodePayload_length] at hw
        split at hw
        · simp at hw
        · injection hw with hw
          exact hw.symm
      simp only [hw] at h ⊢
      simp at h ⊢
      rw [ih h, hb]

@[simp] theorem warnIfNeeded_status (w : WAL) (s : Nat) :
    (warnIfNeeded w s).status = w.status := by
  unfold warnIfNeeded; split <;> rfl

@[simp] theorem warnIfNeeded_nextSequence (w : WAL) (s : Nat) :
    (warnIfNeeded w s).nextSequence = w.nextSequence := by
  unfold warnIfNeeded; split <;> rfl

@[simp] theorem warnIfNeeded_fileBytes (w : WAL) (s : Nat) :
    (warnIfNeeded w s).fileBytes = w.fileBytes := by
  unfold warnIfNeeded; split <;> rfl

theorem warnIfNeeded_of_flag {w : WAL} (h : w.overflowWarning = true) (s : Nat) :
    warnIfNeeded w s = w := by
  unfold warnIfNeeded
  simp [h]

theorem warnIfNeeded_flag_mono {w : WAL} (h : w.overflowWarning = true) (s : Nat) :
    (warnIfNeeded w s).overflowWarning = true := by
  rw [warnIfNeeded_of_flag h]; exact h

theorem writeMiddleLast_ok (remaining : List Nat) :
    ∃ bs, writeMiddleLast remaining = .ok bs := by
  generalize hn : remaining.length = n
  induction n using Nat.strong_induction_on generalizing remaining with
  | _ n ih =>
    unfold writeMiddleLast
    split
    · have hlen : (remaining.take MaxRecordSize).length = MaxRecordSize := by
        simp; omega
      have hdrop : (remaining.drop MaxRecordSize).length < n := by
        simp only [List.length_drop]
        simp only [MaxRecordSize] at *
        omega
      obtain ⟨bs, hbs⟩ := ih _ hdrop _ rfl
      refine ⟨frameBytes RecordTypeMiddle (remaining.take MaxRecordSize) ++ bs, ?_⟩
      simp only [writeRawRecord, hlen, hbs, gt_iff_lt, lt_irrefl, if_false]
      rfl
    · split
      · exact ⟨frameBytes RecordTypeLast remaining, by simp [writeRawRecord]; omega⟩
      · exact ⟨[], rfl⟩

theorem writeFragmentedRecord_ok (entryType seqNum : Nat) (key value : List Nat) :
    ∃ bs, writeFragmentedRecord entryType seqNum key value = .ok bs := by
  unfold writeFragmentedRecord
  have hfirst : ¬ (([entryType] ++ leBytes 8 seqNum ++ leBytes 4 key.length ++
      key.take (min key.length (MaxRecordSize - (1 + 8 + 4)))).length > MaxRecordSize) := by
    simp only [List.length_append, List.length_cons, List.length_nil, leBytes_length,
      List.length_take, MaxRecordSize, gt_iff_lt, not_lt]
    omega
  obtain ⟨bs, hbs⟩ := writeMiddleLast_ok (key.drop (min key.length (MaxRecordSize - (1 + 8 + 4))) ++
    (if entryType ≠ OpTypeDelete then leBytes 4 value.length ++ value else []))
  simp only [writeRawRecord, hfirst, if_false, hbs, Except.bind]
  exact ⟨_, rfl⟩

theorem appendWriteBytes_ok (entryType seqNum : Nat) (key value : List Nat) :
    ∃ bs, (if entryPayloadSize entryType key value ≤ MaxRecordSize then
        writeRecord RecordTypeFull entryType seqNum key value
      else
        writeFragmentedRecord entryType seqNum key value) = .ok bs := by
  split
  · exact ⟨_, writeRecord_ok RecordTypeFull seqNum (by omega)⟩
  · exact writeFragmentedRecord_ok entryType seqNum key value

/-- Success shape of `WAL.Append`: the assigned sequence number is the old
`nextSequence`, the new `nextSequence` is one larger, and the appended
bytes extend the file. -/
theorem Append_eq_ok {w w' : WAL} {entryType : Nat} {key value : List Nat} {s : Nat}
    (h : w.Append entryType key value = (w', .ok s)) :
    s = w.nextSequence ∧
    ∃ bytes, w' = { warnIfNeeded w w.nextSequence with
                    nextSequence := w.nextSequence + 1,
                    fileBytes := w.fileBytes ++ bytes } := by
  simp only [WAL.Append] at h
  split at h
  · simp at h
  · split at h
    · simp at h
    · split at h
      · simp at h
      · split at h
        · simp at h
        · split at h
          · simp at h
          · rename_i bytes heq
            simp only [Prod.mk.injEq, Except.ok.injEq] at h
            obtain ⟨hw', hs⟩ := h
            refine ⟨by simp [hs.symm], bytes, ?_⟩
            rw [← hw']
            simp

/-- Success shape of `WAL.AppendBatch` on a nonempty batch. -/
theorem AppendBatch_eq_ok {w w' : WAL} {entries : List Entry} {s : Nat}
    (hne : entries ≠ [])
    (h : w.AppendBatch entries = (w', .ok s)) :
    s = w.nextSequence ∧
    (writeBatch w.nextSequence entries).2 = none ∧
    w' = { warnIfNeeded w w.nextSequence with
           nextSequence := w.nextSequence + 1,
           fileBytes := w.fileBytes ++ (writeBatch w.nextSequence entries).1 } := by
  simp only [WAL.AppendBatch, warnIfNeeded_nextSequence] at h
  repeat' split at h
  all_goals first
    | (simp at h; done)
    | (exact absurd (by assumption) hne)
    | (rename_i heq
       simp only [Prod.mk.injEq, Except.ok.injEq] at h
       obtain ⟨hw', hs⟩ := h
       exact ⟨hs.symm, heq, by rw [← hw']; simp⟩)

/-- Success shape of `WAL.AppendWithSequence`: the returned sequence is the
caller's, and `nextSequence` is raised to `max nextSequence (seq + 1)`. -/
theorem AppendWithSequence_eq_ok {w w' : WAL} {entryType : Nat}
    {key value : List Nat} {seq s : Nat}
    (h : w.AppendWithSequence entryType key value seq = (w', .ok s)) :
    s = seq ∧ w'.nextSequence = max w.nextSequence (seq + 1) ∧
    ∃ bytes, w'.fileBytes = w.fileBytes ++ bytes := by
  simp only [WAL.AppendWithSequence] at h
  repeat' split at h
  all_goals try (simp at h; done)
  all_goals (
    rename_i bytes heq hseq
    simp only [Prod.mk.injEq, Except.ok.injEq] at h
    obtain ⟨hw', hs⟩ := h
    refine ⟨hs.symm, ?_, ⟨bytes, by rw [← hw']; try simp⟩⟩
    (rw [← hw']; try simp) <;> omega)

/-- Success shape of `WAL.AppendExactBytes`. -/
theorem AppendExactBytes_eq_ok {w w' : WAL} {rawBytes : List Nat} {seq s : Nat}
    (h : w.AppendExactBytes rawBytes seq = (w', .ok s)) :
    s = seq ∧ w'.nextSequence = max w.nextSequence (seq + 1) ∧
    w'.fileBytes = w.fileBytes ++ rawBytes := by
  simp only [WAL.AppendExactBytes] at h
  repeat' split at h
  all_goals try (simp at h; done)
  all_goals (
    simp only [Prod.mk.injEq, Except.ok.injEq] at h
    obtain ⟨hw', hs⟩ := h
    refine ⟨hs.symm, ?_, by rw [← hw']; try simp⟩
    (rw [← hw']; try simp) <;> omega)

/-- Forward success shape of `WAL.Append` on an active WAL with a valid
operation type and no overflow. -/
theorem Append_active_ok {w : WAL} {entryType : Nat} (key value : List Nat)
    (hst : w.status = WALStatusActive)
    (hty : entryType = OpTypePut ∨ entryType = OpTypeDelete ∨ entryType = OpTypeMerge)
    (hlt : w.nextSequence < MaxSequenceNumber) :
    ∃ bytes, w.Append entryType key value =
      ({ warnIfNeeded w w.nextSequence with
         nextSequence := w.nextSequence + 1,
         fileBytes := w.fileBytes ++ bytes }, .ok w.nextSequence) := by
  obtain ⟨bs, hbs⟩ := appendWriteBytes_ok entryType w.nextSequence key value
  refine ⟨bs, ?_⟩
  unfold WAL.Append
  rw [if_neg (by rw [hst]; simp [WALStatusActive, WALStatusClosed]),
    if_neg (by rw [hst]; simp [WALStatusActive, WALStatusRotating]),
    if_neg (by rcases hty with rfl | rfl | rfl <;> simp [OpTypePut, OpTypeDelete, OpTypeMerge]),
    if_neg (by omega)]
  simp only [warnIfNeeded_nextSequence, warnIfNeeded_fileBytes]
  rw [hbs]

/-- Firing condition of the overflow warning. -/
theorem warnIfNeeded_fires {w : WAL} {s : Nat}
    (h1 : s ≥ SequenceWarningThreshold) (h2 : w.overflowWarning = false) :
    warnIfNeeded w s =
      { w with overflowWarning := true, warningsLogged := w.warningsLogged + 1 } := by
  unfold warnIfNeeded
  rw [if_pos ⟨h1, by simp [h2]⟩]

theorem Append_preserves_flag (w : WAL) (entryType : Nat) (key value : List Nat)
    (hf : w.overflowWarning = true) :
    (w.Append entryType key value).1.overflowWarning = true ∧
    (w.Append entryType key value).1.warningsLogged = w.warningsLogged := by
  simp only [WAL.Append, warnIfNeeded_of_flag hf]
  repeat' split
  all_goals simp [hf]

theorem AppendWithSequence_preserves_flag (w : WAL) (entryType : Nat)
    (key value : List Nat) (seq : Nat) (hf : w.overflowWarning = true) :
    (w.AppendWithSequence entryType key value seq).1.overflowWarning = true ∧
    (w.AppendWithSequence entryType key value seq).1.warningsLogged = w.warningsLogged := by
  simp only [WAL.AppendWithSequence, warnIfNeeded_of_flag hf]
  repeat' split
  all_goals simp [hf]

theorem AppendBatch_preserves_flag (w : WAL) (entries : List Entry)
    (hf : w.overflowWarning = true) :
    (w.AppendBatch entries).1.overflowWarning = true ∧
    (w.AppendBatch entries).1.warningsLogged = w.warningsLogged := by
  simp only [WAL.AppendBatch, warnIfNeeded_of_flag hf]
  repeat' split
  all_goals simp [hf]

theorem AppendBatchWithSequence_preserves_flag (w : WAL) (entries : List Entry)
    (seq : Nat) (hf : w.overflowWarning = true) :
    (w.AppendBatchWithSequence entries seq).1.overflowWarning = true ∧
    (w.AppendBatchWithSequence entries seq).1.warningsLogged = w.warningsLogged := by
  simp only [WAL.AppendBatchWithSequence, warnIfNeeded_of_flag hf]
  repeat' split
  all_goals simp [hf]

theorem AppendExactBytes_preserves_flag (w : WAL) (raw : List Nat) (seq : Nat) :
    (w.AppendExactBytes raw seq).1.overflowWarning = w.overflowWarning ∧
    (w.AppendExactBytes raw seq).1.warningsLogged = w.warningsLogged := by
  simp only [WAL.AppendExactBytes]
  repeat' split
  all_goals simp

/-! ## Concrete WAL states and entries used for witnesses -/

/-- A fresh active WAL, as created by `NewWAL` (with `nextSequence = 1`). -/
def walDemo : WAL := ⟨WALStatusActive, 1, false, 0, []⟩

/-- An active WAL whose `nextSequence` equals `MaxSequenceNumber`. -/
def walDemoAtMax : WAL := ⟨WALStatusActive, MaxSequenceNumber, false, 0, []⟩

/-- An active WAL whose `nextSequence` equals `SequenceWarningThreshold`. -/
def walDemoAtWarn : WAL := ⟨WALStatusActive, SequenceWarningThreshold, false, 0, []⟩

/-- A WAL in `Rotating` status. -/
def walDemoRotating : WAL := ⟨WALStatusRotating, 5, false, 0, []⟩

/-- A WAL in `Closed` status. -/
def walDemoClosed : WAL := ⟨WALStatusClosed, 5, false, 0, []⟩

/-- A small demonstration batch: a Put and a Delete. -/
def demoEntries : List Entry :=
  [⟨0, OpTypePut, [107, 49], [118, 49]⟩, ⟨0, OpTypeDelete, [107, 50], []⟩]

/-! ## Claim C1 -/

/-- C1 (amended): every successful `Append` returns the `nextSequence` held
before the call and advances `nextSequence` by exactly 1, so the sequence
numbers assigned across successive successful single-entry appends are
strictly increasing; every successful `AppendBatch` call on a nonempty
batch writes every entry of the batch as a Full record carrying the single
shared sequence number `startSeq` (the `nextSequence` at the start of the
call), returns `startSeq`, and leaves `nextSequence` at `startSeq + 1`.
(The original claim quantified over every `AppendBatch` call, but an empty
batch succeeds returning `nextSequence` without advancing it.) -/
theorem walAppend_sequence_discipline :
    (∀ (w : WAL) (entryType : Nat) (key value : List Nat) (s : Nat),
        (w.Append entryType key value).2 = .ok s →
        s = w.nextSequence ∧
        (w.Append entryType key value).1.nextSequence = w.nextSequence + 1) ∧
    (∀ (w : WAL) (ty1 ty2 : Nat) (k1 v1 k2 v2 : List Nat) (s1 s2 : Nat),
        (w.Append ty1 k1 v1).2 = .ok s1 →
        ((w.Append ty1 k1 v1).1.Append ty2 k2 v2).2 = .ok s2 →
        s1 < s2) ∧
    (∀ (w : WAL) (entries : List Entry) (s : Nat),
        entries ≠ [] →
        (w.AppendBatch entries).2 = .ok s →
        s = w.nextSequence ∧
        (w.AppendBatch entries).1.nextSequence = s + 1 ∧
        (w.AppendBatch entries).1.fileBytes =
          w.fileBytes ++ (entries.map fun e =>
            frameBytes RecordTypeFull (encodePayload e.type s e.key e.value)).flatten) := by
  have single : ∀ (w : WAL) (entryType : Nat) (key value : List Nat) (s : Nat),
      (w.Append entryType key value).2 = .ok s →
      s = w.nextSequence ∧
      (w.Append entryType key value).1.nextSequence = w.nextSequence + 1 := by
    intro w ty k v s h
    rcases hp : w.Append ty k v with ⟨w', r⟩
    rw [hp] at h
    replace h : r = Except.ok s := h
    subst h
    obtain ⟨hs, bytes, hw'⟩ := Append_eq_ok hp
    refine ⟨hs, ?_⟩
    show w'.nextSequence = _
    rw [hw']
  refine ⟨single, ?_, ?_⟩
  · intro w ty1 ty2 k1 v1 k2 v2 s1 s2 h1 h2
    obtain ⟨hs1, hnext⟩ := single w ty1 k1 v1 s1 h1
    obtain ⟨hs2, _⟩ := single _ ty2 k2 v2 s2 h2
    rw [hnext] at hs2
    omega
  · intro w entries s hne h
    rcases hp : w.AppendBatch entries with ⟨w', r⟩
    rw [hp] at h
    replace h : r = Except.ok s := h
    subst h
    obtain ⟨hs, hnone, hw'⟩ := AppendBatch_eq_ok hne hp
    subst hs
    refine ⟨rfl, ?_, ?_⟩
    · show w'.nextSequence = _
      rw [hw']
    · show w'.fileBytes = _
      rw [hw']
      show w.fileBytes ++ _ = _
      rw [writeBatch_ok hnone]

/-- C1 witness: on a fresh WAL, the two-entry demonstration batch returns
sequence 1, advances `nextSequence` to 2, and writes both entries with
shared sequence 1. -/
theorem walAppend_sequence_discipline_witness :
    1 = walDemo.nextSequence ∧
    (walDemo.AppendBatch demoEntries).1.nextSequence = 1 + 1 ∧
    (walDemo.AppendBatch demoEntries).1.fileBytes =
      walDemo.fileBytes ++ (demoEntries.map fun e =>
        frameBytes RecordTypeFull (encodePayload e.type 1 e.key e.value)).flatten :=
  walAppend_sequence_discipline.2.2 walDemo demoEntries 1 (by decide) (by decide)

/-- C1 counterexample: `AppendBatch` with an empty entry slice on an
active WAL succeeds, returning the current `nextSequence`, but leaves
`nextSequence` unchanged rather than advancing it by 1 as the claim
demands of every call. -/
theorem walAppendBatch_empty_counterexample :
    (walDemo.AppendBatch []).2 = .ok walDemo.nextSequence ∧
    (walDemo.AppendBatch []).1.nextSequence ≠ walDemo.nextSequence + 1 := by
  decide

/-! ## Claim C3 -/

/-- C3: any append whose assigned sequence number would reach or exceed
`MaxSequenceNumber` returns the `SequenceOverflow` error with the WAL
state untouched; when `nextSequence` reaches `SequenceWarningThreshold`
with the warning flag clear, the warning is logged exactly once and the
flag is set; once the flag is set no append-family call ever logs the
warning again or clears the flag; and appends at or above the threshold
but below `MaxSequenceNumber` still succeed. -/
theorem walSequenceOverflowGuard :
    (∀ (w : WAL) (entryType : Nat) (key value : List Nat),
        w.status = WALStatusActive →
        (entryType = OpTypePut ∨ entryType = OpTypeDelete ∨ entryType = OpTypeMerge) →
        w.nextSequence ≥ MaxSequenceNumber →
        w.Append entryType key value = (w, .error .sequenceOverflow)) ∧
    (∀ (w : WAL) (entries : List Entry),
        w.status = WALStatusActive → entries ≠ [] →
        w.nextSequence ≥ MaxSequenceNumber →
        w.AppendBatch entries = (w, .error .sequenceOverflow)) ∧
    (∀ (w : WAL) (entryType : Nat) (key value : List Nat),
        w.status = WALStatusActive →
        (entryType = OpTypePut ∨ entryType = OpTypeDelete ∨ entryType = OpTypeMerge) →
        w.overflowWarning = false →
        w.nextSequence ≥ SequenceWarningThreshold →
        w.nextSequence < MaxSequenceNumber →
        (w.Append entryType key value).1.overflowWarning = true ∧
        (w.Append entryType key value).1.warningsLogged = w.warningsLogged + 1 ∧
        (w.Append entryType key value).2 = .ok w.nextSequence) ∧
    (∀ (w : WAL) (entryType : Nat) (key value : List Nat),
        w.overflowWarning = true →
        (w.Append entryType key value).1.overflowWarning = true ∧
        (w.Append entryType key value).1.warningsLogged = w.warningsLogged) ∧
    (∀ (w : WAL) (entries : List Entry),
        w.overflowWarning = true →
        (w.AppendBatch entries).1.overflowWarning = true ∧
        (w.AppendBatch entries).1.warningsLogged = w.warningsLogged) ∧
    (∀ (w : WAL) (entryType : Nat) (key value : List Nat) (seq : Nat),
        w.overflowWarning = true →
        (w.AppendWithSequence entryType key value seq).1.overflowWarning = true ∧
        (w.AppendWithSequence entryType key value seq).1.warningsLogged = w.warningsLogged) ∧
    (∀ (w : WAL) (entries : List Entry) (seq : Nat),
        w.overflowWarning = true →
        (w.AppendBatchWithSequence entries seq).1.overflowWarning = true ∧
        (w.AppendBatchWithSequence entries seq).1.warningsLogged = w.warningsLogged) ∧
    (∀ (w : WAL) (raw : List Nat) (seq : Nat),
        (w.AppendExactBytes raw seq).1.overflowWarning = w.overflowWarning ∧
        (w.AppendExactBytes raw seq).1.warningsLogged = w.warningsLogged) := by
  refine ⟨?_, ?_, ?_, Append_preserves_flag, AppendBatch_preserves_flag,
    AppendWithSequence_preserves_flag, AppendBatchWithSequence_preserves_flag,
    AppendExactBytes_preserves_flag⟩
  · intro w ty k v hst hty hov
    rcases hty with rfl | rfl | rfl <;>
      simp [WAL.Append, hst, WALStatusActive, WALStatusRotating, WALStatusClosed,
        OpTypePut, OpTypeDelete, OpTypeMerge, hov]
  · intro w entries hst hne hov
    simp [WAL.AppendBatch, hst, WALStatusActive, WALStatusRotating, WALStatusClosed,
      hne, hov]
  · intro w ty k v hst hty hflag hwt hlt
    obtain ⟨bytes, hb⟩ := Append_active_ok k v hst hty hlt
    rw [hb, warnIfNeeded_fires hwt hflag]
    exact ⟨rfl, rfl, rfl⟩

/-- C3 witness: a WAL sitting exactly at `MaxSequenceNumber` rejects an
append with `SequenceOverflow` and is left untouched; a WAL sitting
exactly at the warning threshold logs the warning once, sets the flag,
and the append still succeeds. -/
theorem walSequenceOverflowGuard_witness :
    walDemoAtMax.Append OpTypePut [107] [118] = (walDemoAtMax, .error .sequenceOverflow) ∧
    ((walDemoAtWarn.Append OpTypePut [107] [118]).1.overflowWarning = true ∧
     (walDemoAtWarn.Append OpTypePut [107] [118]).1.warningsLogged = walDemoAtWarn.warningsLogged + 1 ∧
     (walDemoAtWarn.Append OpTypePut [107] [118]).2 = .ok walDemoAtWarn.nextSequence) :=
  ⟨walSequenceOverflowGuard.1 walDemoAtMax OpTypePut [107] [118] rfl (Or.inl rfl)
      (by decide),
   walSequenceOverflowGuard.2.2.1 walDemoAtWarn OpTypePut [107] [118] rfl (Or.inl rfl)
      rfl (by decide) (by decide)⟩

/-! ## Claim C7 -/

/-- C7: every append-family call made while the WAL status is `Rotating`
returns the `WALRotating` error, and while the status is `Closed` returns
the `WALClosed` error; in both cases the WAL state (bytes and
`nextSequence`) is returned unchanged. -/
theorem walStatusRejections :
    (∀ (w : WAL) (entryType : Nat) (key value : List Nat),
        (w.status = WALStatusRotating →
          w.Append entryType key value = (w, .error .walRotating)) ∧
        (w.status = WALStatusClosed →
          w.Append entryType key value = (w, .error .walClosed))) ∧
    (∀ (w : WAL) (entryType : Nat) (key value : List Nat) (seq : Nat),
        (w.status = WALStatusRotating →
          w.AppendWithSequence entryType key value seq = (w, .error .walRotating)) ∧
        (w.status = WALStatusClosed →
          w.AppendWithSequence entryType key value seq = (w, .error .walClosed))) ∧
    (∀ (w : WAL) (entries : List Entry),
        (w.status = WALStatusRotating →
          w.AppendBatch entries = (w, .error .walRotating)) ∧
        (w.status = WALStatusClosed →
          w.AppendBatch entries = (w, .error .walClosed))) ∧
    (∀ (w : WAL) (entries : List Entry) (seq : Nat),
        (w.status = WALStatusRotating →
          w.AppendBatchWithSequence entries seq = (w, .error .walRotating)) ∧
        (w.status = WALStatusClosed →
          w.AppendBatchWithSequence entries seq = (w, .error .walClosed))) ∧
    (∀ (w : WAL) (raw : List Nat) (seq : Nat),
        (w.status = WALStatusRotating →
          w.AppendExactBytes raw seq = (w, .error .walRotating)) ∧
        (w.status = WALStatusClosed →
          w.AppendExactBytes raw seq = (w, .error .walClosed))) := by
  refine ⟨?_, ?_, ?_, ?_, ?_⟩ <;>
    (intro w
     first
      | (intro entries
         constructor <;> intro hs <;>
           simp [WAL.AppendBatch, hs, WALStatusRotating, WALStatusClosed])
      | skip) <;>
    skip
  · intro ty k v
    constructor <;> intro hs <;>
      simp [WAL.Append, hs, WALStatusRotating, WALStatusClosed]
  · intro ty k v seq
    constructor <;> intro hs <;>
      simp [WAL.AppendWithSequence, hs, WALStatusRotating, WALStatusClosed]
  · intro entries seq
    constructor <;> intro hs <;>
      simp [WAL.AppendBatchWithSequence, hs, WALStatusRotating, WALStatusClosed]
  · intro raw seq
    constructor <;> intro hs <;>
      simp [WAL.AppendExactBytes, hs, WALStatusRotating, WALStatusClosed]

/-- C7 witness: on concrete rotating and closed WALs, `Append` and
`AppendBatch` return the corresponding status errors with the state
unchanged. -/
theorem walStatusRejections_witness :
    walDemoRotating.Append OpTypePut [107] [118] = (walDemoRotating, .error .walRotating) ∧
    walDemoClosed.Append OpTypePut [107] [118] = (walDemoClosed, .error .walClosed) ∧
    walDemoRotating.AppendBatch demoEntries = (walDemoRotating, .error .walRotating) ∧
    walDemoClosed.AppendExactBytes [0, 0, 0, 0, 0, 0, 1] 9 =
      (walDemoClosed, .error .walClosed) :=
  ⟨(walStatusRejections.1 walDemoRotating OpTypePut [107] [118]).1 rfl,
   (walStatusRejections.1 walDemoClosed OpTypePut [107] [118]).2 rfl,
   (walStatusRejections.2.2.1 walDemoRotating demoEntries).1 rfl,
   (walStatusRejections.2.2.2.2 walDemoClosed [0, 0, 0, 0, 0, 0, 1] 9).2 rfl⟩

/-! ## Claim C8 -/

/-- C8: every successful `AppendWithSequence` and every successful
`AppendExactBytes` returns the caller-supplied sequence number and leaves
`nextSequence` at the maximum of its prior value and `seq + 1`; and
`AppendExactBytes` rejects any raw record whose declared payload length
(bytes 4..5 of the header, little-endian) does not match the actual
buffer length. -/
theorem walCallerSequenceAdvance :
    (∀ (w : WAL) (entryType : Nat) (key value : List Nat) (seq s : Nat),
        (w.AppendWithSequence entryType key value seq).2 = .ok s →
        s = seq ∧
        (w.AppendWithSequence entryType key value seq).1.nextSequence =
          max w.nextSequence (seq + 1)) ∧
    (∀ (w : WAL) (raw : List Nat) (seq s : Nat),
        (w.AppendExactBytes raw seq).2 = .ok s →
        s = seq ∧
        (w.AppendExactBytes raw seq).1.nextSequence = max w.nextSequence (seq + 1)) ∧
    (∀ (w : WAL) (raw : List Nat) (seq : Nat),
        w.status = WALStatusActive →
        HeaderSize ≤ raw.length →
        raw.length ≠ HeaderSize + leVal ((raw.drop 4).take 2) →
        w.AppendExactBytes raw seq = (w, .error .sizeMismatch)) := by
  refine ⟨?_, ?_, ?_⟩
  · intro w ty k v seq s h
    rcases hp : w.AppendWithSequence ty k v seq with ⟨w', r⟩
    rw [hp] at h
    replace h : r = Except.ok s := h
    subst h
    obtain ⟨hs, hmax, _⟩ := AppendWithSequence_eq_ok hp
    exact ⟨hs, hmax⟩
  · intro w raw seq s h
    rcases hp : w.AppendExactBytes raw seq with ⟨w', r⟩
    rw [hp] at h
    replace h : r = Except.ok s := h
    subst h
    obtain ⟨hs, hmax, _⟩ := AppendExactBytes_eq_ok hp
    exact ⟨hs, hmax⟩
  · intro w raw seq hst hlen hmis
    unfold WAL.AppendExactBytes
    rw [if_neg (by rw [hst]; simp [WALStatusActive, WALStatusClosed]),
      if_neg (by rw [hst]; simp [WALStatusActive, WALStatusRotating]),
      if_neg (by omega), if_pos hmis]

/-- C8 witness: a successful caller-supplied-sequence append on a fresh
WAL with seq 10 raises `nextSequence` to 11 = max(1, 10 + 1), and a raw
record declaring 1 payload byte but carrying none is rejected. -/
theorem walCallerSequenceAdvance_witness :
    (10 = 10 ∧
      (walDemo.AppendWithSequence OpTypePut [107] [118] 10).1.nextSequence =
        max walDemo.nextSequence (10 + 1)) ∧
    walDemo.AppendExactBytes [0, 0, 0, 0, 1, 0, 1] 9 = (walDemo, .error .sizeMismatch) :=
  ⟨walCallerSequenceAdvance.1 walDemo OpTypePut [107] [118] 10 10 (by decide),
   walCallerSequenceAdvance.2.2 walDemo [0, 0, 0, 0, 1, 0, 1] 9 rfl (by decide) (by decide)⟩

/-! ## Claim C6 -/

/-- The sequence of (record type, payload) pairs that the middle/last
loop of `writeFragmentedRecord` emits: Middle records of exactly
`MaxRecordSize` bytes while more than `MaxRecordSize` bytes remain, then
one Last record holding the trailing bytes. -/
def middleLastRecords (remaining : List Nat) : List (Nat × List Nat) :=
  if remaining.length > MaxRecordSize then
    (RecordTypeMiddle, remaining.take MaxRecordSize) ::
      middleLastRecords (remaining.drop MaxRecordSize)
  else if remaining.length > 0 then [(RecordTypeLast, remaining)]
  else []
termination_by remaining.length
decreasing_by simp [MaxRecordSize] at *; omega

/-- `writeMiddleLast` frames exactly the records `middleLastRecords`
describes. -/
theorem writeMiddleLast_eq (remaining : List Nat) :
    writeMiddleLast remaining =
      .ok ((middleLastRecords remaining).map fun r => frameBytes r.1 r.2).flatten := by
  generalize hn : remaining.length = n
  induction n using Nat.strong_induction_on generalizing remaining with
  | _ n ih =>
    unfold writeMiddleLast middleLastRecords
    split
    · have hlen : (remaining.take MaxRecordSize).length = MaxRecordSize := by
        simp; omega
      have hdrop : (remaining.drop MaxRecordSize).length < n := by
        simp only [List.length_drop]
        simp only [MaxRecordSize] at *
        omega
      rw [ih _ hdrop _ rfl]
      simp only [writeRawRecord, hlen, gt_iff_lt, lt_irrefl, if_false]
      rfl
    · split
      · simp [writeRawRecord]
        omega
      · rfl

/-- Concatenating the payloads of the middle/last records restores the
remaining byte stream. -/
theorem middleLastRecords_join (remaining : List Nat) :
    ((middleLastRecords remaining).map Prod.snd).flatten = remaining := by
  generalize hn : remaining.length = n
  induction n using Nat.strong_induction_on generalizing remaining with
  | _ n ih =>
    unfold middleLastRecords
    split
    · have hdrop : (remaining.drop MaxRecordSize).length < n := by
        simp only [List.length_drop]
        simp only [MaxRecordSize] at *
        omega
      simp only [List.map_cons, List.flatten_cons]
      rw [ih _ hdrop _ rfl]
      exact List.take_append_drop _ _
    · split
      · simp
      · have hz : remaining.length = 0 := by omega
        simp [List.eq_nil_of_length_eq_zero hz]

theorem middleLastRecords_ne_nil {remaining : List Nat} (h : remaining ≠ []) :
    middleLastRecords remaining ≠ [] := by
  unfold middleLastRecords
  split
  · simp
  · split
    · simp
    · have : remaining.length = 0 := by omega
      exact absurd (List.eq_nil_of_length_eq_zero this) h

/-- All records before the final one are Middle records of exactly
`MaxRecordSize` bytes. -/
theorem middleLastRecords_middles (remaining : List Nat) :
    ∀ r ∈ (middleLastRecords remaining).dropLast,
      r.1 = RecordTypeMiddle ∧ r.2.length = MaxRecordSize := by
  generalize hn : remaining.length = n
  induction n using Nat.strong_induction_on generalizing remaining with
  | _ n ih =>
    unfold middleLastRecords
    split
    · rename_i hgt
      have hne : remaining.drop MaxRecordSize ≠ [] := by
        intro hcon
        have := congrArg List.length hcon
        simp only [List.length_drop, List.length_nil] at this
        simp only [MaxRecordSize] at *
        omega
      have hdrop : (remaining.drop MaxRecordSize).length < n := by
        simp only [List.length_drop]
        simp only [MaxRecordSize] at *
        omega
      rw [List.dropLast_cons_of_ne_nil (middleLastRecords_ne_nil hne)]
      intro r hr
      rcases List.mem_cons.mp hr with rfl | hr
      · exact ⟨rfl, by simp; omega⟩
      · exact ih _ hdrop _ rfl r hr
    · split <;> simp

/-- The final record is a Last record holding between 1 and
`MaxRecordSize` trailing bytes. -/
theorem middleLastRecords_last (remaining : List Nat) (h : remaining ≠ []) :
    ∃ lastRec, (middleLastRecords remaining).getLast? = some lastRec ∧
      lastRec.1 = RecordTypeLast ∧ 0 < lastRec.2.length ∧
      lastRec.2.length ≤ MaxRecordSize := by
  generalize hn : remaining.length = n
  induction n using Nat.strong_induction_on generalizing remaining with
  | _ n ih =>
    unfold middleLastRecords
    split
    · rename_i hgt
      have hne : remaining.drop MaxRecordSize ≠ [] := by
        intro hcon
        have := congrArg List.length hcon
        simp only [List.length_drop, List.length_nil] at this
        simp only [MaxRecordSize] at *
        omega
      have hdrop : (remaining.drop MaxRecordSize).length < n := by
        simp only [List.length_drop]
        simp only [MaxRecordSize] at *
        omega
      obtain ⟨lastRec, hl, h1, h2, h3⟩ := ih _ hdrop _ hne rfl
      refine ⟨lastRec, ?_, h1, h2, h3⟩
      have hmem : lastRec ∈ ((RecordTypeMiddle, remaining.take MaxRecordSize) ::
          middleLastRecords (remaining.drop MaxRecordSize)).getLast? :=
        List.mem_getLast?_cons (by rw [Option.mem_def, hl])
      rwa [Option.mem_def] at hmem
    · split
      · rename_i hle hpos
        exact ⟨(RecordTypeLast, remaining), by simp, rfl, by simpa using hpos,
          by simpa using hle⟩
      · rename_i h1 h2
        exact absurd (List.eq_nil_of_length_eq_zero (by omega)) h

/-- Forward success shape of `WAL.Append` with the written bytes made
explicit. -/
theorem Append_active_writes {w : WAL} {entryType : Nat} {key value : List Nat}
    {bs : List Nat}
    (hst : w.status = WALStatusActive)
    (hty : entryType = OpTypePut ∨ entryType = OpTypeDelete ∨ entryType = OpTypeMerge)
    (hlt : w.nextSequence < MaxSequenceNumber)
    (hbs : (if entryPayloadSize entryType key value ≤ MaxRecordSize then
        writeRecord RecordTypeFull entryType w.nextSequence key value
      else writeFragmentedRecord entryType w.nextSequence key value) = .ok bs) :
    w.Append entryType key value =
      ({ warnIfNeeded w w.nextSequence with
         nextSequence := w.nextSequence + 1,
         fileBytes := w.fileBytes ++ bs }, .ok w.nextSequence) := by
  unfold WAL.Append
  rw [if_neg (by rw [hst]; simp [WALStatusActive, WALStatusClosed]),
    if_neg (by rw [hst]; simp [WALStatusActive, WALStatusRotating]),
    if_neg (by rcases hty with rfl | rfl | rfl <;> simp [OpTypePut, OpTypeDelete, OpTypeMerge]),
    if_neg (by omega)]
  simp only [warnIfNeeded_nextSequence, warnIfNeeded_fileBytes]
  rw [hbs]

/-- The full record sequence emitted by `writeFragmentedRecord`: a First
record with the metadata prefix and the key bytes that fit, followed by
the middle/last records over the remaining stream. -/
theorem writeFragmentedRecord_eq (entryType seqNum : Nat) (key value : List Nat) :
    writeFragmentedRecord entryType seqNum key value = .ok
      ((((RecordTypeFirst,
          [entryType] ++ leBytes 8 seqNum ++ leBytes 4 key.length ++
            key.take (min key.length (MaxRecordSize - (1 + 8 + 4)))) ::
         middleLastRecords (key.drop (min key.length (MaxRecordSize - (1 + 8 + 4))) ++
           (if entryType ≠ OpTypeDelete then leBytes 4 value.length ++ value
            else []))).map fun r => frameBytes r.1 r.2).flatten) := by
  unfold writeFragmentedRecord
  have hfirst : ¬(([entryType] ++ leBytes 8 seqNum ++ leBytes 4 key.length ++
      key.take (min key.length (MaxRecordSize - (1 + 8 + 4)))).length > MaxRecordSize) := by
    simp only [List.length_append, List.length_cons, List.length_nil, leBytes_length,
      List.length_take, MaxRecordSize, gt_iff_lt, not_lt]
    omega
  simp only [writeRawRecord, hfirst, if_false, writeMiddleLast_eq]
  rfl

/-- C6: an entry whose encoded logical payload is at most `MaxRecordSize`
is written by `Append` as exactly one Full record; a larger entry is
written as a First record carrying only the metadata prefix (op, seq,
key_len) plus as many key bytes as fit, followed by the remaining key
bytes and (for non-Delete ops) the value length and value as one
contiguous stream, split into Middle records of exactly `MaxRecordSize`
with the trailing bytes in a final Last record. -/
theorem walFragmentationAlgorithm :
    (∀ (w : WAL) (entryType : Nat) (key value : List Nat),
        w.status = WALStatusActive →
        (entryType = OpTypePut ∨ entryType = OpTypeDelete ∨ entryType = OpTypeMerge) →
        w.nextSequence < MaxSequenceNumber →
        (entryPayloadSize entryType key value ≤ MaxRecordSize →
          (w.Append entryType key value).1.fileBytes = w.fileBytes ++
            frameBytes RecordTypeFull (encodePayload entryType w.nextSequence key value)) ∧
        (entryPayloadSize entryType key value > MaxRecordSize →
          (w.Append entryType key value).1.fileBytes = w.fileBytes ++
            ((((RecordTypeFirst,
                [entryType] ++ leBytes 8 w.nextSequence ++ leBytes 4 key.length ++
                  key.take (min key.length (MaxRecordSize - (1 + 8 + 4)))) ::
              middleLastRecords (key.drop (min key.length (MaxRecordSize - (1 + 8 + 4))) ++
                (if entryType ≠ OpTypeDelete then leBytes 4 value.length ++ value
                 else []))).map fun r => frameBytes r.1 r.2).flatten))) ∧
    (∀ remaining : List Nat,
        ((middleLastRecords remaining).map Prod.snd).flatten = remaining ∧
        (∀ r ∈ (middleLastRecords remaining).dropLast,
          r.1 = RecordTypeMiddle ∧ r.2.length = MaxRecordSize) ∧
        (remaining ≠ [] →
          ∃ lastRec, (middleLastRecords remaining).getLast? = some lastRec ∧
            lastRec.1 = RecordTypeLast ∧ 0 < lastRec.2.length ∧
            lastRec.2.length ≤ MaxRecordSize)) := by
  refine ⟨?_, fun remaining => ⟨middleLastRecords_join remaining,
    middleLastRecords_middles remaining, middleLastRecords_last remaining⟩⟩
  intro w ty k v hst hty hlt
  constructor
  · intro hle
    have hbs : (if entryPayloadSize ty k v ≤ MaxRecordSize then
        writeRecord RecordTypeFull ty w.nextSequence k v
      else writeFragmentedRecord ty w.nextSequence k v) =
        .ok (frameBytes RecordTypeFull (encodePayload ty w.nextSequence k v)) := by
      rw [if_pos hle]
      exact writeRecord_ok _ _ hle
    rw [Append_active_writes hst hty hlt hbs]
  · intro hgt
    have hbs : (if entryPayloadSize ty k v ≤ MaxRecordSize then
        writeRecord RecordTypeFull ty w.nextSequence k v
      else writeFragmentedRecord ty w.nextSequence k v) = .ok
        ((((RecordTypeFirst,
            [ty] ++ leBytes 8 w.nextSequence ++ leBytes 4 k.length ++
              k.take (min k.length (MaxRecordSize - (1 + 8 + 4)))) ::
          middleLastRecords (k.drop (min k.length (MaxRecordSize - (1 + 8 + 4))) ++
            (if ty ≠ OpTypeDelete then leBytes 4 v.length ++ v
             else []))).map fun r => frameBytes r.1 r.2).flatten) := by
      rw [if_neg (by omega)]
      exact writeFragmentedRecord_eq ty w.nextSequence k v
    rw [Append_active_writes hst hty hlt hbs]

/-- C6 witness: a small Put entry on the fresh demo WAL is written as one
Full record framing its encoded payload. -/
theorem walFragmentationAlgorithm_witness :
    (walDemo.Append OpTypePut [107] [118]).1.fileBytes = walDemo.fileBytes ++
      frameBytes RecordTypeFull (encodePayload OpTypePut walDemo.nextSequence [107] [118]) :=
  (walFragmentationAlgorithm.1 walDemo OpTypePut [107] [118] rfl (Or.inl rfl)
    (by decide)).1 (by decide)

/-! ## Claim C10 -/

/-- C10: calling `AppendBatch` with an empty entry slice on an Active WAL
succeeds, returning the current `nextSequence` with no error and leaving
the whole WAL state unchanged; `AppendBatchWithSequence` with an empty
slice likewise returns the given start sequence and changes nothing. -/
theorem walEmptyBatch_noop :
    ∀ (w : WAL), w.status = WALStatusActive →
      w.AppendBatch [] = (w, .ok w.nextSequence) ∧
      ∀ seq : Nat, w.AppendBatchWithSequence [] seq = (w, .ok seq) := by
  intro w hs
  constructor
  · simp [WAL.AppendBatch, hs, WALStatusActive, WALStatusRotating, WALStatusClosed]
  · intro seq
    simp [WAL.AppendBatchWithSequence, hs, WALStatusActive, WALStatusRotating,
      WALStatusClosed]

/-- C10 witness: on the fresh demo WAL, the empty batch returns sequence 1
and the empty batch-with-sequence returns the given 42, both leaving the
state untouched. -/
theorem walEmptyBatch_noop_witness :
    walDemo.AppendBatch [] = (walDemo, .ok walDemo.nextSequence) ∧
    walDemo.AppendBatchWithSequence [] 42 = (walDemo, .ok 42) :=
  ⟨(walEmptyBatch_noop walDemo rfl).1, (walEmptyBatch_noop walDemo rfl).2 42⟩

/-! ## Skip list and memtable (`pkg/memtable`)

The memtable operations are translated from the source; the skip list
implementation itself is not under `src/`, so it is modelled from the
spec as an ordered multi-map. -/

/-- Skip-list record kind for a Put. -/
def TypeValue : Nat := 1
/-- Skip-list record kind for a tombstone. -/
def TypeDeletion : Nat := 2

/-- A skip-list record: user key, value bytes, record kind
(`TypeValue` / `TypeDeletion`) and sequence number. -/
structure SLEntry where
  key : List Nat
  value : List Nat
  valueType : Nat
  seq : Nat
  deriving DecidableEq, Repr

/-- Modelled from the spec: the per-record size added to the skip list's
byte counter ("updates an atomic byte counter by record.size()"); the
exact formula is not under src, so key bytes + value bytes + a fixed
overhead for kind and sequence number is used. -/
def SLEntry.size (e : SLEntry) : Nat := e.key.length + e.value.length + 16

/-- `newEntry` constructor. -/
def newEntry (key value : List Nat) (valueType seqNum : Nat) : SLEntry :=
  ⟨key, value, valueType, seqNum⟩

/-- Lexicographic byte-string comparison on keys. -/
def keyLt : List Nat → List Nat → Bool
  | [], [] => false
  | [], _ :: _ => true
  | _ :: _, [] => false
  | a :: as, b :: bs => if a < b then true else if b < a then false else keyLt as bs

/-- Modelled from the spec: the skip list comparator — primary ascending
by key, secondary descending by sequence number so the newest version of
a key sorts first among its cohort. -/
def entryLt (e1 e2 : SLEntry) : Bool :=
  if keyLt e1.key e2.key then true
  else if keyLt e2.key e1.key then false
  else decide (e2.seq < e1.seq)

/-- Insertion into the ordered record list at the comparator's position. -/
def insertSorted (e : SLEntry) : List SLEntry → List SLEntry
  | [] => [e]
  | x :: xs => if entryLt e x then e :: x :: xs else x :: insertSorted e xs

/-- First record in ascending order whose key equals the target. -/
def findFirst (key : List Nat) : List SLEntry → Option SLEntry
  | [] => none
  | x :: xs => if x.key = key then some x else findFirst key xs

/-- Modelled from the spec: the skip list as an ordered record list plus
the byte counter (`ApproximateSize`). -/
structure SkipList where
  entries : List SLEntry
  size : Nat
  deriving DecidableEq, Repr

/-- `NewSkipList`. -/
def NewSkipList : SkipList := ⟨[], 0⟩

/-- `SkipList.Insert`: splice the record in comparator order and add its
size to the byte counter. -/
def SkipList.Insert (s : SkipList) (e : SLEntry) : SkipList :=
  ⟨insertSorted e s.entries, s.size + e.size⟩

/-- `SkipList.Find`: the first record in ascending order whose key equals
the user key (the newest version), or nothing. -/
def SkipList.Find (s : SkipList) (key : List Nat) : Option SLEntry :=
  findFirst key s.entries

/-- `SkipList.ApproximateSize`. -/
def SkipList.ApproximateSize (s : SkipList) : Nat := s.size

/-- The memtable: a skip list plus the next sequence number and the
immutability flag (`MemTable` in the source; the creation timestamp and
locks are irrelevant to the claims). -/
structure MemTable where
  skipList : SkipList
  nextSeqNum : Nat
  immutable : Bool
  deriving DecidableEq, Repr

/-- `NewMemTable`. -/
def NewMemTable : MemTable := ⟨NewSkipList, 0, false⟩

/-- `MemTable.IsImmutable`. -/
def MemTable.IsImmutable (m : MemTable) : Bool := m.immutable

/-- `MemTable.SetImmutable`: marks the memtable immutable. -/
def MemTable.SetImmutable (m : MemTable) : MemTable := { m with immutable := true }

/-- `MemTable.Put`: no-op on an immutable memtable; otherwise insert a
`TypeValue` record and raise `nextSeqNum` to `seqNum + 1` when the given
sequence number is at least the recorded one. -/
def MemTable.Put (m : MemTable) (key value : List Nat) (seqNum : Nat) : MemTable :=
  if m.IsImmutable then m
  else
    let m := { m with skipList := m.skipList.Insert (newEntry key value TypeValue seqNum) }
    if seqNum > m.nextSeqNum then { m with nextSeqNum := seqNum + 1 } else m

/-- `MemTable.Delete`: no-op on an immutable memtable; otherwise insert a
`TypeDeletion` record (nil value) and update `nextSeqNum` the same way. -/
def MemTable.Delete (m : MemTable) (key : List Nat) (seqNum : Nat) : MemTable :=
  if m.IsImmutable then m
  else
    let m := { m with skipList := m.skipList.Insert (newEntry key [] TypeDeletion seqNum) }
    if seqNum > m.nextSeqNum then { m with nextSeqNum := seqNum + 1 } else m

/-- `MemTable.Get`: `(none, false)` when the key is absent, `(none, true)`
when the newest record is a tombstone, `(some value, true)` otherwise.
`none` stands for Go's nil byte slice. -/
def MemTable.Get (m : MemTable) (key : List Nat) : Option (List Nat) × Bool :=
  match m.skipList.Find key with
  | none => (none, false)
  | some e => if e.valueType = TypeDeletion then (none, true) else (some e.value, true)

/-- `MemTable.ApproximateSize`. -/
def MemTable.ApproximateSize (m : MemTable) : Nat := m.skipList.ApproximateSize

/-- `MemTable.GetNextSequenceNumber`. -/
def MemTable.GetNextSequenceNumber (m : MemTable) : Nat := m.nextSeqNum

/-- `MemTable.ProcessWALEntry`: dispatch a WAL entry to `Put` or `Delete`
by operation type; other types are no-ops. -/
def MemTable.ProcessWALEntry (m : MemTable) (entry : Entry) : MemTable :=
  if entry.type = OpTypePut then m.Put entry.key entry.value entry.sequenceNumber
  else if entry.type = OpTypeDelete then m.Delete entry.key entry.sequenceNumber
  else m

/-! ## Skip list lemmas -/

theorem keyLt_irrefl (a : List Nat) : keyLt a a = false := by
  induction a with
  | nil => rfl
  | cons x xs ih => simp [keyLt, ih]

theorem entryLt_of_same_key {e x : SLEntry} (hk : x.key = e.key)
    (hs : x.seq < e.seq) : entryLt e x = true := by
  unfold entryLt
  rw [hk, keyLt_irrefl]
  simpa using hs

theorem mem_insertSorted {x e : SLEntry} {l : List SLEntry} :
    x ∈ insertSorted e l ↔ x = e ∨ x ∈ l := by
  induction l with
  | nil => simp [insertSorted]
  | cons y ys ih =>
    unfold insertSorted
    split
    · simp
    · simp only [List.mem_cons, ih]
      tauto

theorem findFirst_insertSorted_ne {e : SLEntry} {key : List Nat}
    (hne : e.key ≠ key) (l : List SLEntry) :
    findFirst key (insertSorted e l) = findFirst key l := by
  induction l with
  | nil => simp [insertSorted, findFirst, hne]
  | cons x xs ih =>
    unfold insertSorted
    split
    · simp [findFirst, hne]
    · unfold findFirst
      split <;> simp_all [findFirst]

theorem findFirst_insertSorted_newest {e : SLEntry} {l : List SLEntry}
    (h : ∀ x ∈ l, x.key = e.key → x.seq < e.seq) :
    findFirst e.key (insertSorted e l) = some e := by
  induction l with
  | nil => simp [insertSorted, findFirst]
  | cons x xs ih =>
    unfold insertSorted
    split
    · simp [findFirst]
    · rename_i hnlt
      have hxk : x.key ≠ e.key := by
        intro hk
        have := entryLt_of_same_key hk (h x (by simp) hk)
        simp [this] at hnlt
      unfold findFirst
      rw [if_neg hxk]
      exact ih fun y hy => h y (by simp [hy])

/-! ## Claim C4 -/

/-- A memtable write operation: Put or Delete. -/
inductive WriteOp where
  | put (key value : List Nat) (seq : Nat)
  | del (key : List Nat) (seq : Nat)
  deriving DecidableEq, Repr

/-- The key of a write operation. -/
def WriteOp.key : WriteOp → List Nat
  | .put k _ _ => k
  | .del k _ => k

/-- The sequence number of a write operation. -/
def WriteOp.seqNum : WriteOp → Nat
  | .put _ _ s => s
  | .del _ s => s

/-- Apply one write operation to a memtable. -/
def applyWrite (m : MemTable) : WriteOp → MemTable
  | .put k v s => m.Put k v s
  | .del k s => m.Delete k s

/-- Apply a sequence of write operations in order. -/
def applyWrites (m : MemTable) (ops : List WriteOp) : MemTable :=
  ops.foldl applyWrite m

theorem applyWrite_immutable (m : MemTable) (op : WriteOp) :
    (applyWrite m op).immutable = m.immutable := by
  cases op <;>
    simp only [applyWrite, MemTable.Put, MemTable.Delete, MemTable.IsImmutable] <;>
    (repeat' split) <;> rfl

theorem applyWrites_immutable (ops : List WriteOp) :
    ∀ m : MemTable, (applyWrites m ops).immutable = m.immutable := by
  induction ops with
  | nil => intro m; rfl
  | cons op ops ih =>
    intro m
    show (applyWrites (applyWrite m op) ops).immutable = _
    rw [ih, applyWrite_immutable]

theorem applyWrite_entries_sub {m : MemTable} {op : WriteOp} {x : SLEntry}
    (hx : x ∈ (applyWrite m op).skipList.entries) :
    x ∈ m.skipList.entries ∨ x.seq = op.seqNum := by
  cases op <;>
    simp only [applyWrite, MemTable.Put, MemTable.Delete, MemTable.IsImmutable] at hx <;>
    split at hx
  case put.isTrue => exact Or.inl hx
  case del.isTrue => exact Or.inl hx
  all_goals
    split at hx <;>
    · simp only [SkipList.Insert] at hx
      rcases mem_insertSorted.mp hx with rfl | hmem
      · exact Or.inr rfl
      · exact Or.inl hmem

theorem applyWrites_entries_seq_lt {s : Nat} (ops : List WriteOp)
    (hall : ∀ op ∈ ops, op.seqNum < s) :
    ∀ m : MemTable, (∀ x ∈ m.skipList.entries, x.seq < s) →
    ∀ x ∈ (applyWrites m ops).skipList.entries, x.seq < s := by
  induction ops with
  | nil => intro m hm; exact hm
  | cons op ops ih =>
    intro m hm x hx
    refine ih (fun o ho => hall o (by simp [ho])) (applyWrite m op) ?_ x hx
    intro y hy
    rcases applyWrite_entries_sub hy with hmem | hseq
    · exact hm y hmem
    · rw [hseq]; exact hall op (by simp)

theorem MemTable.Get_eq (m : MemTable) (key : List Nat) :
    m.Get key = (match findFirst key m.skipList.entries with
      | none => (none, false)
      | some e =>
        if e.valueType = TypeDeletion then (none, true) else (some e.value, true)) :=
  rfl

theorem Put_entries {m : MemTable} (him : m.immutable = false)
    (k v : List Nat) (s : Nat) :
    (m.Put k v s).skipList.entries =
      insertSorted (newEntry k v TypeValue s) m.skipList.entries := by
  simp only [MemTable.Put, MemTable.IsImmutable, him, Bool.false_eq_true, if_false]
  split <;> rfl

theorem Delete_entries {m : MemTable} (him : m.immutable = false)
    (k : List Nat) (s : Nat) :
    (m.Delete k s).skipList.entries =
      insertSorted (newEntry k [] TypeDeletion s) m.skipList.entries := by
  simp only [MemTable.Delete, MemTable.IsImmutable, him, Bool.false_eq_true, if_false]
  split <;> rfl

theorem Get_applyWrite_ne {m : MemTable} {op : WriteOp} {key : List Nat}
    (hk : op.key ≠ key) (him : m.immutable = false) :
    (applyWrite m op).Get key = m.Get key := by
  cases op with
  | put k v s =>
    show (m.Put k v s).Get key = m.Get key
    rw [MemTable.Get_eq, MemTable.Get_eq, Put_entries him,
      findFirst_insertSorted_ne (show (newEntry k v TypeValue s).key ≠ key from hk)]
  | del k s =>
    show (m.Delete k s).Get key = m.Get key
    rw [MemTable.Get_eq, MemTable.Get_eq, Delete_entries him,
      findFirst_insertSorted_ne (show (newEntry k [] TypeDeletion s).key ≠ key from hk)]

theorem Get_applyWrite_eq {m : MemTable} {op : WriteOp} {key : List Nat}
    (hk : op.key = key) (him : m.immutable = false)
    (hnew : ∀ x ∈ m.skipList.entries, x.key = key → x.seq < op.seqNum) :
    (applyWrite m op).Get key =
      match op with
      | .put _ v _ => (some v, true)
      | .del _ _ => (none, true) := by
  cases op with
  | put k v s =>
    replace hk : k = key := hk
    subst hk
    show (m.Put k v s).Get k = (some v, true)
    have hfind : findFirst k (insertSorted (newEntry k v TypeValue s) m.skipList.entries) =
        some (newEntry k v TypeValue s) :=
      @findFirst_insertSorted_newest (newEntry k v TypeValue s) m.skipList.entries
        (fun x hx hxk => hnew x hx hxk)
    rw [MemTable.Get_eq, Put_entries him, hfind]
    simp [newEntry, TypeValue, TypeDeletion]
  | del k s =>
    replace hk : k = key := hk
    subst hk
    show (m.Delete k s).Get k = (none, true)
    have hfind : findFirst k (insertSorted (newEntry k [] TypeDeletion s) m.skipList.entries) =
        some (newEntry k [] TypeDeletion s) :=
      @findFirst_insertSorted_newest (newEntry k [] TypeDeletion s) m.skipList.entries
        (fun x hx hxk => hnew x hx hxk)
    rw [MemTable.Get_eq, Delete_entries him, hfind]
    simp [newEntry, TypeDeletion]

/-- C4: when a memtable is built by applying Put/Delete operations with
strictly increasing sequence numbers to a fresh memtable, `Get` returns
`(none, false)` when no operation wrote the key, `(none, true)` when the
newest record for the key is a tombstone, and `(some value, true)` when
the newest record for the key is a Put with that value. -/
theorem memtableGetTriState :
    ∀ (ops : List WriteOp) (key : List Nat),
      ops.Pairwise (fun a b => a.seqNum < b.seqNum) →
      (applyWrites NewMemTable ops).Get key =
        match (ops.filter fun op => decide (op.key = key)).getLast? with
        | none => (none, false)
        | some (.put _ v _) => (some v, true)
        | some (.del _ _) => (none, true) := by
  intro ops
  induction ops using List.reverseRecOn with
  | nil =>
    intro key _
    rfl
  | append_singleton ops op ih =>
    intro key hp
    rw [List.pairwise_append] at hp
    obtain ⟨hp1, _, hlast⟩ := hp
    have happ : applyWrites NewMemTable (ops ++ [op]) =
        applyWrite (applyWrites NewMemTable ops) op := by
      simp [applyWrites, List.foldl_append]
    have him : (applyWrites NewMemTable ops).immutable = false := by
      rw [applyWrites_immutable]; rfl
    by_cases hk : op.key = key
    · have hseqbound : ∀ x ∈ (applyWrites NewMemTable ops).skipList.entries,
          x.key = key → x.seq < op.seqNum := by
        intro x hx _
        refine applyWrites_entries_seq_lt ops ?_ NewMemTable ?_ x hx
        · intro o ho
          exact hlast o ho op (by simp)
        · intro y hy
          simp [NewMemTable, NewSkipList] at hy
      have hflt : List.filter (fun o => decide (o.key = key)) (ops ++ [op]) =
          List.filter (fun o => decide (o.key = key)) ops ++ [op] := by
        rw [List.filter_append]
        simp [hk]
      rw [happ, hflt, List.getLast?_concat, Get_applyWrite_eq hk him hseqbound]
      cases op <;> rfl
    · have hflt : List.filter (fun o => decide (o.key = key)) (ops ++ [op]) =
          List.filter (fun o => decide (o.key = key)) ops := by
        rw [List.filter_append]
        simp [hk]
      rw [happ, Get_applyWrite_ne hk him, ih key hp1, hflt]

/-- Concrete write sequence used by the C4 witness. -/
def demoWrites : List WriteOp :=
  [.put [1] [10] 1, .del [1] 2, .put [2] [20] 3]

/-- C4 witness: after Put then Delete on key `[1]` and a Put on key `[2]`,
lookups report the tombstone for `[1]`, the value for `[2]`, and absence
for `[3]`. -/
theorem memtableGetTriState_witness :
    (applyWrites NewMemTable demoWrites).Get [1] = (none, true) ∧
    (applyWrites NewMemTable demoWrites).Get [2] = (some [20], true) ∧
    (applyWrites NewMemTable demoWrites).Get [3] = (none, false) := by
  refine ⟨?_, ?_, ?_⟩ <;>
    · rw [memtableGetTriState demoWrites _ (by decide)]
      decide

/-! ## Claim C5 -/

/-- A memtable API call relevant to the immutability claim. -/
inductive MemOp where
  | put (key value : List Nat) (seq : Nat)
  | del (key : List Nat) (seq : Nat)
  | setImm
  deriving DecidableEq, Repr

/-- Apply one memtable API call. -/
def applyMemOp (m : MemTable) : MemOp → MemTable
  | .put k v s => m.Put k v s
  | .del k s => m.Delete k s
  | .setImm => m.SetImmutable

/-- Apply a sequence of memtable API calls in order. -/
def applyMemOps (m : MemTable) (ops : List MemOp) : MemTable :=
  ops.foldl applyMemOp m

/-- C5: once `SetImmutable` has been called, `IsImmutable` stays true
under every further sequence of Put/Delete/SetImmutable calls, and every
subsequent Put or Delete is a complete no-op: the memtable state —
skip-list contents, approximate size and recorded next sequence number —
is unchanged. -/
theorem memtableImmutable_oneWay :
    (∀ (m : MemTable) (key value : List Nat) (seqNum : Nat),
        m.IsImmutable = true → m.Put key value seqNum = m) ∧
    (∀ (m : MemTable) (key : List Nat) (seqNum : Nat),
        m.IsImmutable = true → m.Delete key seqNum = m) ∧
    (∀ (m : MemTable), (m.SetImmutable).IsImmutable = true) ∧
    (∀ (m : MemTable) (ops : List MemOp),
        m.IsImmutable = true → (applyMemOps m ops).IsImmutable = true) := by
  have hput : ∀ (m : MemTable) (key value : List Nat) (seqNum : Nat),
      m.IsImmutable = true → m.Put key value seqNum = m := by
    intro m k v s h
    simp [MemTable.Put, h]
  have hdel : ∀ (m : MemTable) (key : List Nat) (seqNum : Nat),
      m.IsImmutable = true → m.Delete key seqNum = m := by
    intro m k s h
    simp [MemTable.Delete, h]
  refine ⟨hput, hdel, fun m => rfl, ?_⟩
  intro m ops
  induction ops generalizing m with
  | nil => exact fun h => h
  | cons op ops ih =>
    intro h
    show (applyMemOps (applyMemOp m op) ops).IsImmutable = true
    refine ih _ ?_
    cases op with
    | put k v s => rw [applyMemOp, hput m k v s h]; exact h
    | del k s => rw [applyMemOp, hdel m k s h]; exact h
    | setImm => rfl

/-- C5 witness: on a freshly frozen memtable, Put and Delete are no-ops
and the immutability flag survives a further mutation sequence. -/
theorem memtableImmutable_oneWay_witness :
    NewMemTable.SetImmutable.Put [1] [2] 3 = NewMemTable.SetImmutable ∧
    NewMemTable.SetImmutable.Delete [1] 4 = NewMemTable.SetImmutable ∧
    (applyMemOps NewMemTable.SetImmutable
      [.put [1] [2] 5, .del [1] 6, .setImm]).IsImmutable = true :=
  ⟨memtableImmutable_oneWay.1 NewMemTable.SetImmutable [1] [2] 3 rfl,
   memtableImmutable_oneWay.2.1 NewMemTable.SetImmutable [1] 4 rfl,
   memtableImmutable_oneWay.2.2.2 NewMemTable.SetImmutable
     [.put [1] [2] 5, .del [1] 6, .setImm] rfl⟩

/-! ## Recovery (`pkg/memtable/recovery.go`) -/

/-- `RecoveryOptions`: maximum sequence number to recover, maximum number
of memtables, and the per-memtable size threshold. -/
structure RecoveryOptions where
  maxSequenceNumber : Nat
  maxMemTables : Nat
  memTableSize : Nat
  deriving DecidableEq, Repr

/-- One step of the `entryHandler` closure in `RecoverFromWAL` applied to
the state (completed memtables, current memtable, running `maxSeqNum`).
Entries beyond `MaxSequenceNumber` are skipped; when the current memtable
is at or above `MemTableSize`, it is sealed and a fresh one allocated
unless that would exceed `MaxMemTables`, in which case recovery fails. -/
def recoverStep (opts : RecoveryOptions) (st : List MemTable × MemTable × Nat)
    (entry : Entry) : Except String (List MemTable × MemTable × Nat) :=
  let (front, current, maxSeqNum) := st
  if entry.sequenceNumber > opts.maxSequenceNumber then .ok (front, current, maxSeqNum)
  else
    let maxSeqNum :=
      if entry.sequenceNumber > maxSeqNum then entry.sequenceNumber else maxSeqNum
    if current.ApproximateSize ≥ opts.memTableSize then
      if front.length + 1 ≥ opts.maxMemTables then
        .error "maximum number of memtables exceeded during recovery"
      else
        .ok (front ++ [current.SetImmutable],
          NewMemTable.ProcessWALEntry entry, maxSeqNum)
    else .ok (front, current.ProcessWALEntry entry, maxSeqNum)

/-- `RecoverFromWAL` over the replayed entry list: fold the handler over
the entries starting from one fresh memtable, returning the memtable list
and the highest non-skipped sequence number. -/
def RecoverFromWAL (opts : RecoveryOptions) (entries : List Entry) :
    Except String (List MemTable × Nat) :=
  (entries.foldlM (recoverStep opts) ([], NewMemTable, 0)).map
    fun st => (st.1 ++ [st.2.1], st.2.2)

theorem recoverStep_maxSeq (opts : RecoveryOptions)
    (st : List MemTable × MemTable × Nat) (entry : Entry)
    {st' : List MemTable × MemTable × Nat}
    (h : recoverStep opts st entry = .ok st') :
    st'.2.2 = if entry.sequenceNumber > opts.maxSequenceNumber then st.2.2
      else max st.2.2 entry.sequenceNumber := by
  rcases st with ⟨front, current, maxSeqNum⟩
  simp only [recoverStep] at h
  split at h
  · rename_i hgt
    simp only [Except.ok.injEq] at h
    rw [← h, if_pos hgt]
  · rename_i hgt
    rw [if_neg hgt]
    split at h
    · split at h
      · simp at h
      · simp only [Except.ok.injEq] at h
        rw [← h]
        show (if entry.sequenceNumber > maxSeqNum then entry.sequenceNumber else maxSeqNum) = _
        split <;> (simp only []; omega)
    · simp only [Except.ok.injEq] at h
      rw [← h]
      show (if entry.sequenceNumber > maxSeqNum then entry.sequenceNumber else maxSeqNum) = _
      split <;> (simp only []; omega)

theorem foldlM_recoverStep_maxSeq (opts : RecoveryOptions) (entries : List Entry) :
    ∀ (st : List MemTable × MemTable × Nat)
      (st' : List MemTable × MemTable × Nat),
      entries.foldlM (recoverStep opts) st = .ok st' →
      st'.2.2 = (entries.filter fun e =>
          decide (e.sequenceNumber ≤ opts.maxSequenceNumber)).foldl
        (fun acc e => max acc e.sequenceNumber) st.2.2 := by
  induction entries with
  | nil =>
    intro st st' h
    replace h : (Except.ok st : Except String (List MemTable × MemTable × Nat)) =
      .ok st' := h
    injection h with h
    rw [← h]
    rfl
  | cons e rest ih =>
    intro st st' h
    rw [List.foldlM_cons] at h
    cases hstep : recoverStep opts st e with
    | error err =>
      rw [hstep] at h
      replace h : (Except.error err : Except String (List MemTable × MemTable × Nat)) =
        .ok st' := h
      simp at h
    | ok st1 =>
      rw [hstep] at h
      replace h : rest.foldlM (recoverStep opts) st1 = .ok st' := h
      have hmax := recoverStep_maxSeq opts st e hstep
      by_cases hle : e.sequenceNumber ≤ opts.maxSequenceNumber
      · have hf : (e :: rest).filter
            (fun e => decide (e.sequenceNumber ≤ opts.maxSequenceNumber)) =
            e :: rest.filter (fun e => decide (e.sequenceNumber ≤ opts.maxSequenceNumber)) := by
          simp [List.filter_cons, hle]
        rw [hf, List.foldl_cons, ih st1 st' h, hmax, if_neg (by omega)]
      · have hf : (e :: rest).filter
            (fun e => decide (e.sequenceNumber ≤ opts.maxSequenceNumber)) =
            rest.filter (fun e => decide (e.sequenceNumber ≤ opts.maxSequenceNumber)) := by
          simp [List.filter_cons, hle]
        rw [hf, ih st1 st' h, hmax, if_pos (by omega)]

/-- C9: during WAL replay recovery, an entry with sequence number above
the configured `MaxSequenceNumber` is skipped (state unchanged); when the
current memtable has reached `MemTableSize` before applying the next
entry, the current memtable is sealed immutable and a fresh mutable
memtable receives that entry, provided the memtable count stays within
`MaxMemTables` — otherwise recovery fails with an error; an entry that
fits is applied to the current memtable; and on success the returned
`maxSeqNum` is the maximum sequence number over the non-skipped entries. -/
theorem recoverySegmentationAndCap :
    (∀ (opts : RecoveryOptions) (front : List MemTable) (current : MemTable)
        (maxSeqNum : Nat) (entry : Entry),
        entry.sequenceNumber > opts.maxSequenceNumber →
        recoverStep opts (front, current, maxSeqNum) entry =
          .ok (front, current, maxSeqNum)) ∧
    (∀ (opts : RecoveryOptions) (front : List MemTable) (current : MemTable)
        (maxSeqNum : Nat) (entry : Entry),
        entry.sequenceNumber ≤ opts.maxSequenceNumber →
        current.ApproximateSize ≥ opts.memTableSize →
        front.length + 1 ≥ opts.maxMemTables →
        (recoverStep opts (front, current, maxSeqNum) entry).isOk = false) ∧
    (∀ (opts : RecoveryOptions) (front : List MemTable) (current : MemTable)
        (maxSeqNum : Nat) (entry : Entry),
        entry.sequenceNumber ≤ opts.maxSequenceNumber →
        current.ApproximateSize ≥ opts.memTableSize →
        front.length + 1 < opts.maxMemTables →
        recoverStep opts (front, current, maxSeqNum) entry =
          .ok (front ++ [current.SetImmutable], NewMemTable.ProcessWALEntry entry,
            max maxSeqNum entry.sequenceNumber)) ∧
    (∀ (opts : RecoveryOptions) (front : List MemTable) (current : MemTable)
        (maxSeqNum : Nat) (entry : Entry),
        entry.sequenceNumber ≤ opts.maxSequenceNumber →
        current.ApproximateSize < opts.memTableSize →
        recoverStep opts (front, current, maxSeqNum) entry =
          .ok (front, current.ProcessWALEntry entry,
            max maxSeqNum entry.sequenceNumber)) ∧
    (∀ (opts : RecoveryOptions) (entries : List Entry)
        (memTables : List MemTable) (maxSeqNum : Nat),
        RecoverFromWAL opts entries = .ok (memTables, maxSeqNum) →
        maxSeqNum = (entries.filter fun e =>
            decide (e.sequenceNumber ≤ opts.maxSequenceNumber)).foldl
          (fun acc e => max acc e.sequenceNumber) 0) := by
  refine ⟨?_, ?_, ?_, ?_, ?_⟩
  · intro opts front current maxSeqNum entry hgt
    simp only [recoverStep]
    rw [if_pos hgt]
  · intro opts front current maxSeqNum entry hle hsize hcap
    simp only [recoverStep]
    rw [if_neg (by omega), if_pos hsize, if_pos hcap]
    rfl
  · intro opts front current maxSeqNum entry hle hsize hcap
    simp only [recoverStep]
    rw [if_neg (by omega), if_pos hsize, if_neg (by omega)]
    have hm : (if entry.sequenceNumber > maxSeqNum then entry.sequenceNumber
        else maxSeqNum) = max maxSeqNum entry.sequenceNumber := by
      split <;> omega
    rw [hm]
  · intro opts front current maxSeqNum entry hle hsize
    simp only [recoverStep]
    rw [if_neg (by omega), if_neg (by omega)]
    have hm : (if entry.sequenceNumber > maxSeqNum then entry.sequenceNumber
        else maxSeqNum) = max maxSeqNum entry.sequenceNumber := by
      split <;> omega
    rw [hm]
  · intro opts entries memTables maxSeqNum h
    unfold RecoverFromWAL at h
    cases hf : entries.foldlM (recoverStep opts) ([], NewMemTable, 0) with
    | error err =>
      rw [hf] at h
      replace h : (Except.error err : Except String (List MemTable × Nat)) =
        .ok (memTables, maxSeqNum) := h
      simp at h
    | ok st =>
      rw [hf] at h
      replace h : (Except.ok (st.1 ++ [st.2.1], st.2.2) :
        Except String (List MemTable × Nat)) = .ok (memTables, maxSeqNum) := h
      injection h with h
      have hm := foldlM_recoverStep_maxSeq opts entries _ _ hf
      have h2 := congrArg Prod.snd h
      simp only at h2
      rw [← h2, hm]

/-- Concrete recovery options and entries for the C9 witness. -/
def demoOpts : RecoveryOptions := ⟨100, 2, 10⟩

/-- C9 witness: an entry above the recovery cap is skipped; a full current
memtable is sealed and replaced when under the memtable cap; recovery of
a concrete entry list returns the maximum non-skipped sequence number. -/
theorem recoverySegmentationAndCap_witness :
    recoverStep demoOpts ([], NewMemTable, 7) ⟨200, OpTypePut, [1], [2]⟩ =
      .ok ([], NewMemTable, 7) ∧
    (recoverStep demoOpts ([NewMemTable], ⟨⟨[], 10⟩, 0, false⟩, 0)
      ⟨5, OpTypePut, [1], [2]⟩).isOk = false ∧
    (∀ mts maxSeq,
        RecoverFromWAL demoOpts [⟨3, OpTypePut, [1], [2]⟩, ⟨200, OpTypePut, [1], [2]⟩,
          ⟨9, OpTypeDelete, [1], []⟩] = .ok (mts, maxSeq) →
        maxSeq = 9) := by
  refine ⟨?_, ?_, ?_⟩
  · exact recoverySegmentationAndCap.1 demoOpts [] NewMemTable 7 ⟨200, OpTypePut, [1], [2]⟩
      (by decide)
  · exact recoverySegmentationAndCap.2.1 demoOpts [NewMemTable] ⟨⟨[], 10⟩, 0, false⟩ 0
      ⟨5, OpTypePut, [1], [2]⟩ (by decide) (by decide) (by decide)
  · intro mts maxSeq h
    have := recoverySegmentationAndCap.2.2.2.2 demoOpts
      [⟨3, OpTypePut, [1], [2]⟩, ⟨200, OpTypePut, [1], [2]⟩, ⟨9, OpTypeDelete, [1], []⟩]
      mts maxSeq h
    rw [this]
    decide

/-! ## WAL replay (reader side)

The reader implementation (`reader.go` / `ReplayWALDir`) is not under
`src/`; it is modelled from the spec: read CRC-framed physical records,
reassemble First/Middle/Last runs into logical payloads, decode, and
yield entries in order. -/

/-- Modelled from the spec: read one physical record from the byte
stream — 7-byte header `{crc32 (4 LE), length (2 LE), type (1)}`, then
`length` payload bytes; the CRC must match the payload and the record
type must be in range. Returns the record and the remaining bytes. -/
def readRecord (bs : List Nat) : Option ((Nat × List Nat) × List Nat) :=
  if bs.length < HeaderSize then none
  else
    let crc := leVal (bs.take 4)
    let len := leVal ((bs.drop 4).take 2)
    let ty := (bs.drop 6).headD 0
    if (bs.drop HeaderSize).length < len then none
    else
      let payload := (bs.drop HeaderSize).take len
      let rest := (bs.drop HeaderSize).drop len
      if crc32 payload ≠ crc then none
      else if ty < RecordTypeFull ∨ ty > RecordTypeLast then none
      else some ((ty, payload), rest)

theorem readRecord_length {bs : List Nat} {r : Nat × List Nat} {rest : List Nat}
    (h : readRecord bs = some (r, rest)) : rest.length < bs.length := by
  simp only [readRecord] at h
  split at h
  · simp at h
  · rename_i hge
    split at h
    · simp at h
    · split at h
      · simp at h
      · split at h
        · simp at h
        · simp only [Option.some.injEq, Prod.mk.injEq] at h
          obtain ⟨_, h2⟩ := h
          rw [← h2]
          simp only [List.length_drop, HeaderSize] at *
          omega

/-- Modelled from the spec: split the byte stream into its physical
records; any trailing garbage or malformed record fails the parse. -/
def parseRecords (bs : List Nat) : Option (List (Nat × List Nat)) :=
  if bs = [] then some []
  else
    match h : readRecord bs with
    | none => none
    | some (r, rest) => (parseRecords rest).map (r :: ·)
termination_by bs.length
decreasing_by exact readRecord_length h

/-- Modelled from the spec: collect the Middle payloads following a First
record up to and including the Last record of the fragmented run. -/
def takeFrags : List (Nat × List Nat) → Option (List Nat × List (Nat × List Nat))
  | [] => none
  | (ty, p) :: rs =>
    if ty = RecordTypeMiddle then (takeFrags rs).map fun pr => (p ++ pr.1, pr.2)
    else if ty = RecordTypeLast then some (p, rs)
    else none

theorem takeFrags_length :
    ∀ {l : List (Nat × List Nat)} {p : List Nat} {l2 : List (Nat × List Nat)},
      takeFrags l = some (p, l2) → l2.length < l.length := by
  intro l
  induction l with
  | nil => intro p l2 h; simp [takeFrags] at h
  | cons x xs ih =>
    intro p l2 h
    rcases x with ⟨ty, pl⟩
    unfold takeFrags at h
    split at h
    · cases hx : takeFrags xs with
      | none => rw [hx] at h; simp at h
      | some pr =>
        rw [hx] at h
        replace h : some (pl ++ pr.1, pr.2) = some (p, l2) := h
        injection h with h
        have h2 : pr.2 = l2 := congrArg Prod.snd h
        have := ih (show takeFrags xs = some (pr.1, pr.2) by rw [hx])
        rw [← h2]
        simp only [List.length_cons]
        omega
    · split at h
      · simp only [Option.some.injEq, Prod.mk.injEq] at h
        obtain ⟨_, h2⟩ := h
        rw [← h2]
        simp only [List.length_cons]
        omega
      · simp at h

/-- Modelled from the spec: decode a logical entry payload
`{op_type (1), seq (8 LE), key_len (4 LE), key, [val_len (4 LE), value]}`,
where Delete entries omit the value section; the payload must be consumed
exactly. -/
def decodePayload (payload : List Nat) : Option Entry :=
  if payload.length < 1 + 8 + 4 then none
  else
    let op := payload.headD 0
    let seq := leVal ((payload.drop 1).take 8)
    let keyLen := leVal ((payload.drop 9).take 4)
    if (payload.drop 13).length < keyLen then none
    else
      let key := (payload.drop 13).take keyLen
      let rest := (payload.drop 13).drop keyLen
      if op = OpTypeDelete then
        if rest = [] then some ⟨seq, op, key, []⟩ else none
      else
        if rest.length < 4 then none
        else
          let valLen := leVal (rest.take 4)
          if (rest.drop 4).length = valLen then
            some ⟨seq, op, key, rest.drop 4⟩
          else none

/-- Modelled from the spec: reassemble the parsed physical records into
logical entries — a Full record decodes alone; a First record is joined
with the following Middle payloads and the Last payload before
decoding. -/
def assemble : List (Nat × List Nat) → Option (List Entry)
  | [] => some []
  | (ty, payload) :: recs =>
    if ty = RecordTypeFull then
      match decodePayload payload, assemble recs with
      | some e, some es => some (e :: es)
      | _, _ => none
    else if ty = RecordTypeFirst then
      match h : takeFrags recs with
      | none => none
      | some (more, recs2) =>
        match decodePayload (payload ++ more), assemble recs2 with
        | some e, some es => some (e :: es)
        | _, _ => none
    else none
termination_by l => l.length
decreasing_by
  · simp
  · have := takeFrags_length h
    simp only [List.length_cons]
    omega

/-- Modelled from the spec: replay a WAL byte stream — parse the physical
records, reassemble and decode the logical entries in order. -/
def readEntries (bs : List Nat) : Option (List Entry) :=
  (parseRecords bs).bind assemble

/-! ## Round-trip lemmas: framing -/

theorem take_exact {a : List Nat} (b : List Nat) {n : Nat} (h : a.length = n) :
    (a ++ b).take n = a := by
  rw [← h]
  exact List.take_left a b

theorem drop_exact {a : List Nat} (b : List Nat) {n : Nat} (h : a.length = n) :
    (a ++ b).drop n = b := by
  rw [← h]
  exact List.drop_left a b

/-- Parsing a framed record from the head of a stream recovers the record
type, the payload, and the rest of the stream. -/
theorem readRecord_frame {ty : Nat} {p : List Nat} (rest : List Nat)
    (hp : p.length ≤ MaxRecordSize)
    (hty1 : RecordTypeFull ≤ ty) (hty2 : ty ≤ RecordTypeLast) :
    readRecord (frameBytes ty p ++ rest) = some ((ty, p), rest) := by
  have hassoc : frameBytes ty p ++ rest =
      leBytes 4 (crc32 p) ++ (leBytes 2 p.length ++ (ty :: (p ++ rest))) := by
    simp [frameBytes, List.append_assoc]
  have ht4 : (frameBytes ty p ++ rest).take 4 = leBytes 4 (crc32 p) := by
    rw [hassoc]
    exact take_exact _ (leBytes_length 4 _)
  have hd4 : (frameBytes ty p ++ rest).drop 4 =
      leBytes 2 p.length ++ (ty :: (p ++ rest)) := by
    rw [hassoc]
    exact drop_exact _ (leBytes_length 4 _)
  have hd6 : (frameBytes ty p ++ rest).drop 6 = ty :: (p ++ rest) := by
    rw [show (6 : Nat) = 4 + 2 from rfl, ← List.drop_drop, hd4]
    exact drop_exact _ (leBytes_length 2 _)
  have hd7 : (frameBytes ty p ++ rest).drop 7 = p ++ rest := by
    rw [show (7 : Nat) = 6 + 1 from rfl, ← List.drop_drop, hd6]
    rfl
  have hlen : (frameBytes ty p ++ rest).length = 7 + (p.length + rest.length) := by
    simp [frameBytes]
    omega
  have hcrc : leVal (leBytes 4 (crc32 p)) = crc32 p := by
    refine leVal_leBytes_of_lt ?_
    have := crc32_lt p
    norm_num at this ⊢
    omega
  have hplen : leVal (leBytes 2 p.length) = p.length := by
    refine leVal_leBytes_of_lt ?_
    simp only [MaxRecordSize] at hp
    norm_num
    omega
  unfold readRecord
  simp only [HeaderSize, ht4, hd4, hd6, hd7, hcrc, hlen]
  rw [if_neg (by omega)]
  have htake2 : (leBytes 2 p.length ++ (ty :: (p ++ rest))).take 2 = leBytes 2 p.length :=
    take_exact _ (leBytes_length 2 _)
  simp only [htake2, hplen, List.headD_cons]
  rw [if_neg (by simp only [List.length_append]; omega)]
  rw [take_exact _ rfl, drop_exact _ rfl]
  rw [if_neg (by simp)]
  rw [if_neg (by
    simp only [RecordTypeFull, RecordTypeLast] at hty1 hty2 ⊢
    omega)]

/-- Wellformedness of a physical record: payload within the cap and a
record type in range. -/
def recWf (r : Nat × List Nat) : Prop :=
  r.2.length ≤ MaxRecordSize ∧ RecordTypeFull ≤ r.1 ∧ r.1 ≤ RecordTypeLast

theorem parseRecords_nil : parseRecords [] = some [] := by
  unfold parseRecords
  simp

theorem parseRecords_frame_cons {ty : Nat} {p : List Nat} (rest : List Nat)
    (hp : p.length ≤ MaxRecordSize)
    (hty1 : RecordTypeFull ≤ ty) (hty2 : ty ≤ RecordTypeLast) :
    parseRecords (frameBytes ty p ++ rest) =
      (parseRecords rest).map ((ty, p) :: ·) := by
  have hne : frameBytes ty p ++ rest ≠ [] := by
    intro hcon
    have := congrArg List.length hcon
    simp [frameBytes] at this
  unfold parseRecords
  rw [if_neg hne]
  split
  · rename_i hnone
    rw [readRecord_frame rest hp hty1 hty2] at hnone
    cases hnone
  · rename_i r1 rest1 hsome
    rw [readRecord_frame rest hp hty1 hty2] at hsome
    injection hsome with hsome
    obtain ⟨h1, h2⟩ := Prod.mk.injEq _ _ _ _ |>.mp hsome
    rw [← h1, ← h2]
    exact congrArg (Option.map _) (parseRecords.eq_def rest)

theorem parseRecords_flatten :
    ∀ {recs : List (Nat × List Nat)}, (∀ r ∈ recs, recWf r) →
      parseRecords ((recs.map fun r => frameBytes r.1 r.2).flatten) = some recs := by
  intro recs
  induction recs with
  | nil => intro _; exact parseRecords_nil
  | cons r rs ih =>
    intro hwf
    obtain ⟨h1, h2, h3⟩ := hwf r (by simp)
    rcases r with ⟨ty, p⟩
    simp only [List.map_cons, List.flatten_cons]
    rw [parseRecords_frame_cons _ h1 h2 h3, ih fun x hx => hwf x (by simp [hx])]
    rfl

/-! ## Round-trip lemmas: payload decoding -/

theorem decodePayload_encode {op seq : Nat} {key value : List Nat}
    (hop : op = OpTypePut ∨ op = OpTypeDelete ∨ op = OpTypeMerge)
    (hdel : op = OpTypeDelete → value = [])
    (hseq : seq < 2 ^ 64) (hk : key.length < 2 ^ 32) (hv : value.length < 2 ^ 32) :
    decodePayload (encodePayload op seq key value) = some ⟨seq, op, key, value⟩ := by
  have hassoc : encodePayload op seq key value =
      op :: (leBytes 8 seq ++ (leBytes 4 key.length ++ (key ++
        (if op ≠ OpTypeDelete then leBytes 4 value.length ++ value else [])))) := by
    simp [encodePayload, List.append_assoc]
  have hd1 : (encodePayload op seq key value).drop 1 =
      leBytes 8 seq ++ (leBytes 4 key.length ++ (key ++
        (if op ≠ OpTypeDelete then leBytes 4 value.length ++ value else []))) := by
    rw [hassoc]
    rfl
  have hd9 : (encodePayload op seq key value).drop 9 =
      leBytes 4 key.length ++ (key ++
        (if op ≠ OpTypeDelete then leBytes 4 value.length ++ value else [])) := by
    rw [show (9 : Nat) = 1 + 8 from rfl, ← List.drop_drop, hd1]
    exact drop_exact _ (leBytes_length 8 _)
  have hd13 : (encodePayload op seq key value).drop 13 =
      key ++ (if op ≠ OpTypeDelete then leBytes 4 value.length ++ value else []) := by
    rw [show (13 : Nat) = 9 + 4 from rfl, ← List.drop_drop, hd9]
    exact drop_exact _ (leBytes_length 4 _)
  have hseqval : leVal ((encodePayload op seq key value).drop 1 |>.take 8) = seq := by
    rw [hd1, take_exact _ (leBytes_length 8 _)]
    refine leVal_leBytes_of_lt ?_
    norm_num at hseq ⊢
    omega
  have hklval : leVal ((encodePayload op seq key value).drop 9 |>.take 4) = key.length := by
    rw [hd9, take_exact _ (leBytes_length 4 _)]
    refine leVal_leBytes_of_lt ?_
    norm_num at hk ⊢
    omega
  have hhead : (encodePayload op seq key value).headD 0 = op := by
    rw [hassoc]
    rfl
  have hlen : ¬((encodePayload op seq key value).length < 1 + 8 + 4) := by
    rw [encodePayload_length]
    unfold entryPayloadSize
    split <;> omega
  unfold decodePayload
  rw [if_neg hlen]
  simp only [hhead, hseqval, hklval, hd13]
  rw [if_neg (by simp only [List.length_append]; omega)]
  rw [take_exact _ rfl, drop_exact _ rfl]
  by_cases hD : op = OpTypeDelete
  · have ht : (if op ≠ OpTypeDelete then leBytes 4 value.length ++ value
        else ([] : List Nat)) = [] := by simp [hD]
    rw [if_pos hD, ht, if_pos rfl, hdel hD]
  · have ht : (if op ≠ OpTypeDelete then leBytes 4 value.length ++ value
        else ([] : List Nat)) = leBytes 4 value.length ++ value := by simp [hD]
    rw [if_neg hD, ht,
      if_neg (by simp only [List.length_append, leBytes_length]; omega)]
    rw [take_exact _ (leBytes_length 4 _), drop_exact _ (leBytes_length 4 _)]
    rw [leVal_leBytes_of_lt (by norm_num at hv ⊢; omega), if_pos rfl]

/-! ## Round-trip lemmas: fragment reassembly -/

theorem takeFrags_middleLast {rem : List Nat} (hne : rem ≠ [])
    (recs : List (Nat × List Nat)) :
    takeFrags (middleLastRecords rem ++ recs) = some (rem, recs) := by
  generalize hn : rem.length = n
  induction n using Nat.strong_induction_on generalizing rem with
  | _ n ih =>
    unfold middleLastRecords
    split
    · rename_i hgt
      have hdropne : rem.drop MaxRecordSize ≠ [] := by
        intro hcon
        have := congrArg List.length hcon
        simp only [List.length_drop, List.length_nil] at this
        simp only [MaxRecordSize] at *
        omega
      have hdrop : (rem.drop MaxRecordSize).length < n := by
        simp only [List.length_drop]
        simp only [MaxRecordSize] at *
        omega
      rw [List.cons_append]
      unfold takeFrags
      rw [if_pos rfl, ih _ hdrop hdropne rfl]
      simp [List.take_append_drop]
    · split
      · rw [List.cons_append]
        unfold takeFrags
        rw [if_neg (by simp [RecordTypeLast, RecordTypeMiddle]),
          if_pos rfl, List.nil_append]
      · rename_i h1 h2
        exact absurd (List.eq_nil_of_length_eq_zero (by omega)) hne

theorem middleLastRecords_wf (rem : List Nat) :
    ∀ r ∈ middleLastRecords rem, recWf r := by
  generalize hn : rem.length = n
  induction n using Nat.strong_induction_on generalizing rem with
  | _ n ih =>
    unfold middleLastRecords
    split
    · rename_i hgt
      have hdrop : (rem.drop MaxRecordSize).length < n := by
        simp only [List.length_drop]
        simp only [MaxRecordSize] at *
        omega
      intro r hr
      rcases List.mem_cons.mp hr with rfl | hr
      · refine ⟨by simp, by simp [RecordTypeFull, RecordTypeMiddle], by simp [RecordTypeMiddle, RecordTypeLast]⟩
      · exact ih _ hdrop _ rfl r hr
    · split
      · intro r hr
        rcases List.mem_cons.mp hr with rfl | hr
        · exact ⟨by simpa using (by omega : rem.length ≤ MaxRecordSize),
            by simp [RecordTypeFull, RecordTypeLast], by simp [RecordTypeLast]⟩
        · simp at hr
      · intro r hr
        simp at hr

/-! ## Round-trip lemmas: per-entry records and assembly -/

/-- The physical records (type, payload) that the append path emits for
one logical entry: a single Full record when the payload fits, otherwise
a First record plus the middle/last records. -/
def encRecords (op seq : Nat) (key value : List Nat) : List (Nat × List Nat) :=
  if entryPayloadSize op key value ≤ MaxRecordSize then
    [(RecordTypeFull, encodePayload op seq key value)]
  else
    (RecordTypeFirst,
      [op] ++ leBytes 8 seq ++ leBytes 4 key.length ++
        key.take (min key.length (MaxRecordSize - (1 + 8 + 4)))) ::
    middleLastRecords (key.drop (min key.length (MaxRecordSize - (1 + 8 + 4))) ++
      (if op ≠ OpTypeDelete then leBytes 4 value.length ++ value else []))

theorem encRecords_wf {op seq : Nat} {key value : List Nat} :
    ∀ r ∈ encRecords op seq key value, recWf r := by
  unfold encRecords
  split
  · rename_i hle
    intro r hr
    rcases List.mem_cons.mp hr with rfl | hr
    · exact ⟨by rw [encodePayload_length]; exact hle,
        by simp [RecordTypeFull], by simp [RecordTypeFull, RecordTypeLast]⟩
    · simp at hr
  · intro r hr
    rcases List.mem_cons.mp hr with rfl | hr
    · refine ⟨?_, by simp [RecordTypeFull, RecordTypeFirst],
        by simp [RecordTypeFirst, RecordTypeLast]⟩
      simp only [List.length_append, List.length_cons, List.length_nil,
        leBytes_length, List.length_take, MaxRecordSize]
      omega
    · exact middleLastRecords_wf _ r hr

/-- The remaining stream after the First fragment is nonempty whenever
the entry does not fit in one record. -/
theorem fragRemainder_ne_nil {op : Nat} {key value : List Nat}
    (hgt : entryPayloadSize op key value > MaxRecordSize) :
    key.drop (min key.length (MaxRecordSize - (1 + 8 + 4))) ++
      (if op ≠ OpTypeDelete then leBytes 4 value.length ++ value else []) ≠ [] := by
  intro hcon
  have hlen := congrArg List.length hcon
  simp only [List.length_append, List.length_drop, List.length_nil] at hlen
  unfold entryPayloadSize at hgt
  by_cases hD : op = OpTypeDelete
  · simp only [hD, ne_eq, not_true_eq_false, if_neg, ite_false] at hlen hgt
    simp only [List.length_nil, MaxRecordSize] at *
    omega
  · have : (if op ≠ OpTypeDelete then leBytes 4 value.length ++ value
        else ([] : List Nat)).length = 4 + value.length := by
      rw [if_pos hD]
      simp
    rw [this] at hlen
    omega

/-- The First fragment payload joined with the remaining stream is the
full logical payload. -/
theorem firstFrag_append_rem (op seq : Nat) (key value : List Nat) :
    ([op] ++ leBytes 8 seq ++ leBytes 4 key.length ++
      key.take (min key.length (MaxRecordSize - (1 + 8 + 4)))) ++
    (key.drop (min key.length (MaxRecordSize - (1 + 8 + 4))) ++
      (if op ≠ OpTypeDelete then leBytes 4 value.length ++ value else [])) =
    encodePayload op seq key value := by
  unfold encodePayload
  simp only [List.append_assoc]
  rw [← List.append_assoc (key.take _) (key.drop _), List.take_append_drop]

theorem assemble_enc_append {op seq : Nat} {key value : List Nat}
    (hop : op = OpTypePut ∨ op = OpTypeDelete ∨ op = OpTypeMerge)
    (hdel : op = OpTypeDelete → value = [])
    (hseq : seq < 2 ^ 64) (hk : key.length < 2 ^ 32) (hv : value.length < 2 ^ 32)
    (recs : List (Nat × List Nat)) :
    assemble (encRecords op seq key value ++ recs) =
      (assemble recs).map ((⟨seq, op, key, value⟩ : Entry) :: ·) := by
  unfold encRecords
  split
  · rw [List.cons_append, List.nil_append]
    simp only [assemble]
    rw [if_pos trivial, decodePayload_encode hop hdel hseq hk hv]
    cases assemble recs <;> rfl
  · rename_i hgt
    rw [List.cons_append]
    simp only [assemble]
    rw [if_pos trivial]
    have htf := takeFrags_middleLast
      (@fragRemainder_ne_nil op key value (by omega)) recs
    rw [if_neg (by simp [RecordTypeFirst, RecordTypeFull])]
    split
    · rename_i heq
      rw [htf] at heq
      cases heq
    · rename_i more recs2 heq
      rw [htf] at heq
      injection heq with heq
      obtain ⟨hm, hr⟩ := Prod.mk.injEq _ _ _ _ |>.mp heq
      subst hm
      subst hr
      rw [firstFrag_append_rem, decodePayload_encode hop hdel hseq hk hv]
      cases assemble recs <;> rfl

/-! ## Round-trip: the append path -/

/-- The full byte output of `Append` as framed `encRecords`. -/
theorem Append_encRecords {w : WAL} {op : Nat} {key value : List Nat}
    (hst : w.status = WALStatusActive)
    (hop : op = OpTypePut ∨ op = OpTypeDelete ∨ op = OpTypeMerge)
    (hlt : w.nextSequence < MaxSequenceNumber) :
    w.Append op key value =
      ({ warnIfNeeded w w.nextSequence with
         nextSequence := w.nextSequence + 1,
         fileBytes := w.fileBytes ++
           ((encRecords op w.nextSequence key value).map
             fun r => frameBytes r.1 r.2).flatten },
       .ok w.nextSequence) := by
  refine Append_active_writes hst hop hlt ?_
  unfold encRecords
  split
  · rename_i hle
    rw [writeRecord_ok RecordTypeFull w.nextSequence hle]
    simp
  · rename_i hgt
    rw [writeFragmentedRecord_eq]

/-- One logical append request: operation type, key and value. -/
structure AppendReq where
  op : Nat
  key : List Nat
  value : List Nat
  deriving DecidableEq, Repr

/-- Perform a list of `Append` calls in order, stopping at the first
error. -/
def appendAll (w : WAL) : List AppendReq → WAL × Option WalError
  | [] => (w, none)
  | r :: rs =>
    match w.Append r.op r.key r.value with
    | (w1, .ok _) => appendAll w1 rs
    | (w1, .error e) => (w1, some e)

/-- Wellformedness of an append request: a valid operation type, Delete
carries no value, and key/value lengths fit the 32-bit length fields. -/
def reqWf (r : AppendReq) : Prop :=
  (r.op = OpTypePut ∨ r.op = OpTypeDelete ∨ r.op = OpTypeMerge) ∧
  (r.op = OpTypeDelete → r.value = []) ∧
  r.key.length < 2 ^ 32 ∧ r.value.length < 2 ^ 32

instance (r : AppendReq) : Decidable (reqWf r) := by
  unfold reqWf
  infer_instance

/-- The logical entries the append path assigns, numbering from `s`. -/
def seqEntries (s : Nat) : List AppendReq → List Entry
  | [] => []
  | r :: rs => ⟨s, r.op, r.key, r.value⟩ :: seqEntries (s + 1) rs

/-- The physical records the append path emits, numbering from `s`. -/
def recsOfReqs (s : Nat) : List AppendReq → List (Nat × List Nat)
  | [] => []
  | r :: rs => encRecords r.op s r.key r.value ++ recsOfReqs (s + 1) rs

theorem recsOfReqs_wf : ∀ (reqs : List AppendReq) (s : Nat),
    ∀ r ∈ recsOfReqs s reqs, recWf r := by
  intro reqs
  induction reqs with
  | nil => intro s r hr; simp [recsOfReqs] at hr
  | cons q qs ih =>
    intro s r hr
    unfold recsOfReqs at hr
    rcases List.mem_append.mp hr with h | h
    · exact encRecords_wf r h
    · exact ih (s + 1) r h

theorem assemble_recsOfReqs : ∀ (reqs : List AppendReq) (s : Nat),
    (∀ r ∈ reqs, reqWf r) → s + reqs.length ≤ MaxSequenceNumber →
    assemble (recsOfReqs s reqs) = some (seqEntries s reqs) := by
  intro reqs
  induction reqs with
  | nil =>
    intro s _ _
    simp [recsOfReqs, seqEntries, assemble]
  | cons q qs ih =>
    intro s hwf hcap
    obtain ⟨h1, h2, h3, h4⟩ := hwf q (by simp)
    have hM : MaxSequenceNumber < 2 ^ 64 := by norm_num [MaxSequenceNumber]
    simp only [List.length_cons] at hcap
    unfold recsOfReqs
    rw [assemble_enc_append h1 h2 (by omega) h3 h4,
      ih (s + 1) (fun r hr => hwf r (by simp [hr])) (by omega)]
    rfl

theorem appendAll_ok : ∀ (reqs : List AppendReq) (w : WAL),
    w.status = WALStatusActive →
    (∀ r ∈ reqs, r.op = OpTypePut ∨ r.op = OpTypeDelete ∨ r.op = OpTypeMerge) →
    w.nextSequence + reqs.length ≤ MaxSequenceNumber →
    (appendAll w reqs).2 = none ∧
    (appendAll w reqs).1.fileBytes = w.fileBytes ++
      ((recsOfReqs w.nextSequence reqs).map fun r => frameBytes r.1 r.2).flatten := by
  intro reqs
  induction reqs with
  | nil =>
    intro w hst hop hcap
    exact ⟨rfl, by simp [recsOfReqs, appendAll]⟩
  | cons q qs ih =>
    intro w hst hop hcap
    simp only [List.length_cons] at hcap
    have hlt : w.nextSequence < MaxSequenceNumber := by omega
    unfold appendAll
    rw [Append_encRecords hst (hop q (by simp)) hlt]
    obtain ⟨ihok, ihbytes⟩ := ih
      { warnIfNeeded w w.nextSequence with
        nextSequence := w.nextSequence + 1,
        fileBytes := w.fileBytes ++
          ((encRecords q.op w.nextSequence q.key q.value).map
            fun r => frameBytes r.1 r.2).flatten }
      (by simp [hst]) (fun r hr => hop r (by simp [hr])) (by simp; omega)
    refine ⟨ihok, ?_⟩
    rw [ihbytes]
    simp only [recsOfReqs, List.map_append, List.flatten_append, List.append_assoc]

/-- C2 (round-trip identity): appending any sequence of wellformed entries
through the WAL append path on a fresh active WAL and then replaying the
resulting segment bytes yields exactly the same logical entries — the same
operation type, assigned sequence number, key bytes and value bytes, in
append order; this covers zero-length keys and values and entries large
enough to be fragmented into First/Middle/Last records. -/
theorem walRoundTrip :
    ∀ (reqs : List AppendReq) (w : WAL),
      w.status = WALStatusActive →
      w.fileBytes = [] →
      (∀ r ∈ reqs, reqWf r) →
      w.nextSequence + reqs.length ≤ MaxSequenceNumber →
      (appendAll w reqs).2 = none ∧
      readEntries (appendAll w reqs).1.fileBytes =
        some (seqEntries w.nextSequence reqs) := by
  intro reqs w hst hfb hwf hcap
  obtain ⟨hok, hbytes⟩ := appendAll_ok reqs w hst (fun r hr => (hwf r hr).1) hcap
  refine ⟨hok, ?_⟩
  rw [hbytes, hfb, List.nil_append]
  unfold readEntries
  rw [parseRecords_flatten (recsOfReqs_wf reqs w.nextSequence)]
  show assemble (recsOfReqs w.nextSequence reqs) = _
  exact assemble_recsOfReqs reqs w.nextSequence hwf hcap

/-- Concrete append requests for the C2 witness: a Put and a Delete with
a zero-length value. -/
def demoReqs : List AppendReq :=
  [⟨OpTypePut, [107], [118]⟩, ⟨OpTypeDelete, [108], []⟩]

/-- C2 witness: appending the demo requests on the fresh demo WAL
succeeds and replaying the produced bytes returns exactly the two logical
entries with sequence numbers 1 and 2. -/
theorem walRoundTrip_witness :
    (appendAll walDemo demoReqs).2 = none ∧
    readEntries (appendAll walDemo demoReqs).1.fileBytes =
      some (seqEntries walDemo.nextSequence demoReqs) :=
  walRoundTrip demoReqs walDemo rfl rfl (by decide) (by decide)

end Kevo
